import Mathlib

/-!
Verification development for the memestra deprecation scanner
(`memestra/memestra.py`).

The scanner's collaborators (the `gast` syntax tree, the `beniget` def-use
chains and ancestor lookup, module-path resolution, and the on-disk cache
store) are external to the analysed file and are modelled as inputs: a
closed node type for the syntax-tree shapes the scanner inspects, functions
`parents`/`chains` supplied per module, and an environment record for
resolution, parsing and cache-key computation.  Python `set` values are
modelled as duplicate-free lists (`setAdd` inserts only when absent), so
every definition stays executable and claims can be checked on concrete
inputs by `decide`.
-/

namespace Memestra

/-- Shapes of syntax-tree nodes that `memestra.py` inspects: the three
definition kinds from `_defs = (AsyncFunctionDef, ClassDef, FunctionDef)`,
`Attribute` (with its recursive `value` and string `attr`), `Name`,
`alias` (an import binding carrying a dotted module path), `ImportFrom`
statements, and a catch-all for every other node kind.  `id` makes nodes
with equal payloads distinguishable, standing in for Python object
identity; `line`/`col` model `lineno`/`col_offset`. -/
inductive Node where
  | functionDef (id : Nat) (name : String) (line col : Nat)
  | asyncFunctionDef (id : Nat) (name : String) (line col : Nat)
  | classDef (id : Nat) (name : String) (line col : Nat)
  | nameNode (id : Nat) (ident : String) (line col : Nat)
  | attributeNode (id : Nat) (value : Node) (attrName : String) (line col : Nat)
  | aliasNode (id : Nat) (name : String)
  | importFromNode (id : Nat) (moduleName : String)
  | otherNode (id : Nat) (line col : Nat)
deriving DecidableEq

/-- Checks `isinstance(node, _defs)` where
`_defs = (ast.AsyncFunctionDef, ast.ClassDef, ast.FunctionDef)`. -/
def isDefNode : Node → Bool
  | Node.functionDef _ _ _ _ => true
  | Node.asyncFunctionDef _ _ _ _ => true
  | Node.classDef _ _ _ _ => true
  | _ => false

/-- Python's `.name` attribute, used as `d.name` on deprecated nodes and
`alias.name` on import bindings.  Python raises `AttributeError` on node
kinds without a `name` field; the model totalises those cases to `""`. -/
def Node.nameOf : Node → String
  | Node.functionDef _ n _ _ => n
  | Node.asyncFunctionDef _ n _ _ => n
  | Node.classDef _ n _ _ => n
  | Node.aliasNode _ n => n
  | _ => ""

/-- Node id, used only by the `repr` stand-in `reprTag`. -/
def Node.idOf : Node → Nat
  | Node.functionDef i _ _ _ => i
  | Node.asyncFunctionDef i _ _ _ => i
  | Node.classDef i _ _ _ => i
  | Node.nameNode i _ _ _ => i
  | Node.attributeNode i _ _ _ _ => i
  | Node.aliasNode i _ => i
  | Node.importFromNode i _ => i
  | Node.otherNode i _ _ => i

/-- Python `node.lineno` for the node kinds that carry positions. -/
def Node.lineOf : Node → Nat
  | Node.functionDef _ _ l _ => l
  | Node.asyncFunctionDef _ _ l _ => l
  | Node.classDef _ _ l _ => l
  | Node.nameNode _ _ l _ => l
  | Node.attributeNode _ _ _ l _ => l
  | Node.otherNode _ l _ => l
  | _ => 0

/-- Python `node.col_offset` for the node kinds that carry positions. -/
def Node.colOf : Node → Nat
  | Node.functionDef _ _ _ c => c
  | Node.asyncFunctionDef _ _ _ c => c
  | Node.classDef _ _ _ c => c
  | Node.nameNode _ _ _ c => c
  | Node.attributeNode _ _ _ _ c => c
  | Node.otherNode _ _ c => c
  | _ => 0

/-- Stand-in for Python `repr(node)` in `prettyname`'s fallback branch;
the real `repr` includes a memory address, modelled here as a
deterministic tag built from the node id. -/
def reprTag (n : Node) : String := "<node " ++ toString n.idOf ++ ">"

/-- Translation of `prettyname` (memestra.py): definition nodes print
their `name`, `Name` nodes their `id`, `Attribute` nodes recurse into
`value`, and everything else falls back to `repr`. -/
def prettyname : Node → String
  | Node.functionDef _ n _ _ => n
  | Node.asyncFunctionDef _ n _ _ => n
  | Node.classDef _ n _ _ => n
  | Node.nameNode _ i _ _ => i
  | Node.attributeNode _ v a _ _ => prettyname v ++ "." ++ a
  | n => reprTag n

/-- Helper for `splitDots`, walking the character list and cutting at
each `'.'`. -/
def splitDotsAux : List Char → List Char → List String
  | [], acc => [⟨acc.reverse⟩]
  | c :: cs, acc =>
      if c = '.' then (⟨acc.reverse⟩ : String) :: splitDotsAux cs []
      else splitDotsAux cs (c :: acc)

/-- Python `s.split('.')`: cuts at every dot, `"" ↦ [""]`. -/
def splitDots (s : String) : List String := splitDotsAux s.data []

/-- Python `'.'.join(l)`. -/
def joinDots : List String → String
  | [] => ""
  | [s] => s
  | s :: rest => s ++ "." ++ joinDots rest

/-- An entry of the def-use graph: a binding node (for the decorator
matcher, an `alias` introduced by an import statement) together with the
nodes of its readers — `dlocal.users()` / `chains[alias].users()`,
with each beniget use object projected to its `.node`. -/
structure Binding where
  node : Node
  users : List Node
deriving DecidableEq

/-- Python-set insertion: `s.add(d)` on a set modelled as a duplicate-free
list. -/
def setAdd {α : Type} [DecidableEq α] (l : List α) (d : α) : List α :=
  if d ∈ l then l else l ++ [d]

/-- The `while attrs and parents:` loop of `collect_deprecated`, acting on
the reversed ancestor chain (Python pops from the end of `parents`): each
remaining decorator segment must be consumed, in order, by an enclosing
`Attribute` node with that attribute name.  Returns the unconsumed part of
the reversed chain on success, `none` when a segment mismatches, hits a
non-`Attribute` parent, or the chain runs out first. -/
def consumeAttrs : List String → List Node → Option (List Node)
  | [], rparents => some rparents
  | _ :: _, [] => none
  | a :: rest, p :: rparents =>
      match p with
      | Node.attributeNode _ _ pa _ _ =>
          if pa = a then consumeAttrs rest rparents else none
      | _ => none

/-- Outcome of the prefix-mode walk for one use: after the attribute chain
is fully consumed, Python takes `parents[-1]` of what remains and requires
`isinstance(parents[-1], _defs)`; on an empty remainder Python's
`parents[-1]` would fault, which cannot happen for ancestor chains rooted
at a `Module` node, and is modelled as no match. -/
def prefixMatchTarget (rem : List String) (parentsChain : List Node) : Option Node :=
  match consumeAttrs rem parentsChain.reverse with
  | some (p :: _) => if isDefNode p then some p else none
  | some [] => none
  | none => none

/-- Set of nodes one local binding adds to the deprecated set in
`collect_deprecated`: prefix mode when the alias path equals
`decorator[:nbterms]`, otherwise final-segment mode when it equals
`decorator[-1:]` and the binding's `ImportFrom` parent names
`'.'.join(decorator[:-1])`; non-alias bindings contribute nothing. -/
def bindingContrib (decorator : List String) (parents : Node → List Node)
    (b : Binding) : List Node :=
  match b.node with
  | Node.aliasNode _ nm =>
      let originalPath := splitDots nm
      let nbterms := originalPath.length
      if originalPath = decorator.take nbterms then
        b.users.foldl (fun acc u =>
          match prefixMatchTarget (decorator.drop nbterms) (parents u) with
          | some d => setAdd acc d
          | none => acc) []
      else if originalPath = decorator.drop (decorator.length - 1) then
        match (parents b.node).getLast? with
        | some (Node.importFromNode _ m) =>
            if m = joinDots decorator.dropLast then
              b.users.foldl (fun acc u =>
                match (parents u).getLast? with
                | some p => if isDefNode p then setAdd acc p else acc
                | none => acc) []
            else []
        | _ => []
      else []
  | _ => []

/-- Translation of `ImportResolver.collect_deprecated`: fold every local
binding's contribution into one deprecated set. -/
def collect_deprecated (decorator : List String) (locs : List Binding)
    (parents : Node → List Node) : List Node :=
  locs.foldl (fun dep b => (bindingContrib decorator parents b).foldl setAdd dep) []

/-- Translation of `ImportResolver.get_deprecated_users`: for every
deprecated node, every reader whose enclosing definition ancestors are all
non-deprecated yields the triple
`(deprecated_node, user, innermost enclosing definition or the use node)`.
The Python `continue` becomes a `filter`, the `append` a `map`. -/
def get_deprecated_users (dep : List Node) (chains parents : Node → List Node) :
    List (Node × Node × Node) :=
  dep.flatMap (fun d =>
    ((chains d).filter (fun u =>
        !((parents u).filter isDefNode).any (fun f => decide (f ∈ dep)))).map
      (fun u => (d, u, (((parents u).filter isDefNode).getLast?).getD u)))

end Memestra


namespace Memestra

/-- Checks that a node is an `Attribute` whose attribute name is `s`;
used to state what the prefix-mode walk consumes. -/
def isAttrNamed (p : Node) (s : String) : Bool :=
  match p with
  | Node.attributeNode _ _ a _ _ => a = s
  | _ => false

/-- Fixture: a `Module` root node. -/
def tModule : Node := Node.otherNode 0 0 0

/-- Fixture: `def f` at line 3, decorated with `@d.dep` after `import d`. -/
def tF : Node := Node.functionDef 1 "f" 3 0

/-- Fixture: the `Name` node `d` inside the decorator expression `d.dep`. -/
def tNameD : Node := Node.nameNode 3 "d" 2 1

/-- Fixture: the `Attribute` node `d.dep` of the decorator. -/
def tAttr : Node := Node.attributeNode 2 tNameD "dep" 2 1

/-- Fixture: the `alias` binding created by `import d`. -/
def tAlias : Node := Node.aliasNode 4 "d"

/-- Fixture: the `Name` node of the call `f()` at line 5, at module level. -/
def tUseF : Node := Node.nameNode 5 "f" 5 0

/-- Fixture ancestor lookup for the `import d` / `@d.dep` module. -/
def tParents : Node → List Node := fun n =>
  if n = tNameD then [tModule, tF, tAttr]
  else if n = tAttr then [tModule, tF]
  else if n = tUseF then [tModule, Node.otherNode 6 5 0]
  else if n = tF then [tModule]
  else []

/-- Fixture binding list: the `d` alias read by the decorator, and `f`
read by the call site. -/
def tLocs : List Binding := [⟨tAlias, [tNameD]⟩, ⟨tF, [tUseF]⟩]

/-- Fixture def-use chain: `f`'s readers. -/
def tChains : Node → List Node := fun n => if n = tF then [tUseF] else []

/-- Fixture: the `ImportFrom` statement `from d import dep`. -/
def tImpFrom : Node := Node.importFromNode 10 "d"

/-- Fixture: the `alias` binding created by `from d import dep`. -/
def tAliasDep : Node := Node.aliasNode 11 "dep"

/-- Fixture: `def g` at line 4, decorated with `@dep`. -/
def tG : Node := Node.functionDef 12 "g" 4 0

/-- Fixture: the `Name` node `dep` of the decorator `@dep`. -/
def tNameDep : Node := Node.nameNode 13 "dep" 3 1

/-- Fixture ancestor lookup for the `from d import dep` module. -/
def tParents2 : Node → List Node := fun n =>
  if n = tAliasDep then [tModule, tImpFrom]
  else if n = tNameDep then [tModule, tG]
  else []

/-- Counterexample fixture for C1: the decorator is used with arguments,
`@d.dep()`, so a `Call` node sits between the matched attribute chain and
the enclosing `def f`. -/
def cxCall : Node := Node.otherNode 40 2 1

/-- Counterexample fixture for C1: `Name` node `d` inside `@d.dep()`. -/
def cxNameD : Node := Node.nameNode 41 "d" 2 1

/-- Counterexample fixture for C1: `Attribute` node `d.dep` inside the
decorator call. -/
def cxAttr : Node := Node.attributeNode 42 cxNameD "dep" 2 1

/-- Counterexample fixture for C1: ancestor lookup placing the chain
`Module, def f, Call, Attribute` above the use of `d`. -/
def cxParents : Node → List Node := fun n =>
  if n = cxNameD then [tModule, tF, cxCall, cxAttr]
  else []

/-- Counterexample fixture for C1: the `import d` binding read by the
decorator-call expression. -/
def cxB : Binding := ⟨Node.aliasNode 43 "d", [cxNameD]⟩

/-- Counterexample fixture for C6: the `alias` binding of
`from d import d` under decorator path `d.d`. -/
def cxAliasD2 : Node := Node.aliasNode 20 "d"

/-- Counterexample fixture for C6: the `Name` node `d` used as `@d`. -/
def cxNameD2 : Node := Node.nameNode 21 "d" 3 1

/-- Counterexample fixture for C6: the `ImportFrom` statement
`from d import d`. -/
def cxImpFrom2 : Node := Node.importFromNode 22 "d"

/-- Counterexample fixture for C6: `def h`, decorated with `@d`. -/
def cxH : Node := Node.functionDef 23 "h" 4 0

/-- Counterexample fixture for C6: ancestor lookup for the
`from d import d` module. -/
def cxParents3 : Node → List Node := fun n =>
  if n = cxAliasD2 then [tModule, cxImpFrom2]
  else if n = cxNameD2 then [tModule, cxH]
  else []

end Memestra

namespace Memestra

/-- One import statement as `generic_visit` reaches it: `import m1, m2`
carries one alias binding per imported module (the binding's node holds
the dotted module path and its users come from `chains[alias]`);
`from m import a, b` carries the source module's dotted path and the
bindings of the imported names. -/
inductive ImportStmt where
  | imp (aliases : List Binding)
  | impFrom (moduleName : String) (names : List Binding)

/-- Everything the scanner consumes about one parsed module: its local
bindings (`duc.locals[module]`), the beniget ancestor lookup and def-use
chains, and its import statements in visit order. -/
structure ModuleData where
  locs : List Binding
  parents : Node → List Node
  chains : Node → List Node
  imports : List ImportStmt

/-- Outcome of `open(module_path)` followed by `gast.parse(fd.read())`:
a parsed module, a `UnicodeDecodeError` (the only exception the source
catches, memestra.py:74), or a `SyntaxError` from parsing malformed text
(not caught by the source). -/
inductive ParseOutcome where
  | ok (md : ModuleData)
  | undecodable
  | malformed

/-- One cache record.  Modelled from the spec: the record shape
`{format_version, generator, deprecated}` and the stamping of the current
format version on write live in `memestra/caching.py` (`Cache`, `Format`),
which is not part of the analysed source; §3 and §4.4 of the spec define
them. -/
structure CacheEntry where
  version : Nat
  generator : String
  deprecated : List String
deriving DecidableEq

/-- Scan environment: the module-name resolver (`resolve_module`; the
source passes the same `file_path` to every nested resolver, so one
function per scan is faithful), the per-path parse outcome, the cache-key
strategy and the current format version.  `keyOf` and `version` are
modelled from the spec: `CacheKeyFactory`/`RecursiveCacheKeyFactory` and
`Format.version` live in `memestra/caching.py`, outside the analysed
source; §3 of the spec describes them as an opaque content-hash identity
per file path. -/
structure Env where
  resolve : String → Option String
  source : String → ParseOutcome
  keyOf : String → String
  version : Nat

/-- Mutable state one scan threads along: the cache store contents, the
visited set of module paths, emitted warnings `(module_name, key)`, and a
log of paths opened for parsing (the observable "recomputation" events). -/
structure St where
  cache : List (String × CacheEntry)
  visited : List String
  warnings : List (String × String)
  parseLog : List String
deriving DecidableEq

/-- Dictionary read `key in cache` / `cache[key]`, latest write first. -/
def cacheGet (c : List (String × CacheEntry)) (k : String) : Option CacheEntry :=
  (c.find? (fun e => e.1 == k)).map Prod.snd

/-- Result of `load_deprecated_from_module`: `unresolved` models the
`None` return (module path not found), `found` the deprecated-name set
(Python returns a `set` or `[]`; both only ever queried by membership and
iteration), `error` an exception escaping the call, and `fuelOut`
exhaustion of the recursion-depth budget of the model. -/
inductive LoadResult where
  | unresolved
  | found (names : List String)
  | error
  | fuelOut
deriving DecidableEq

/-- Result of visiting a module's import statements. -/
inductive StepResult where
  | cont (dep : List Node)
  | error
  | fuelOut
deriving DecidableEq

/-- Per-user loop of `visit_Import` for one alias whose module reported
`deprecated` names: every reader whose immediate parent is an attribute
access `alias.attr` with `attr` deprecated marks that attribute node.
Python indexes `parents(user.node)[-1]`, which would fault on an empty
chain; unreachable for rooted chains, modelled as skip. -/
def markImportUsers (parents : Node → List Node) (deprecated : List String)
    (users : List Node) (dep : List Node) : List Node :=
  users.foldl (fun acc u =>
    match (parents u).getLast? with
    | some (Node.attributeNode i v a l c) =>
        if a ∈ deprecated then setAdd acc (Node.attributeNode i v a l c) else acc
    | _ => acc) dep

/-- Marking loop of `visit_ImportFrom`: for each deprecated name of the
imported module, `aliases.index(deprec)` finds the first alias with that
original name (ValueError skips), and all its readers are marked. -/
def markImportFromUsers (names : List Binding) (deprecated : List String)
    (dep : List Node) : List Node :=
  deprecated.foldl (fun acc deprec =>
    match names.find? (fun b => b.node.nameOf == deprec) with
    | some b => b.users.foldl setAdd acc
    | none => acc) dep

/-- The `for alias in node.names` loop of `visit_Import`: load each
module; `None` (unresolved) continues with the next alias. -/
def visitImportAliases (load : St → String → LoadResult × St)
    (parents : Node → List Node) :
    List Binding → List Node → St → StepResult × St
  | [], dep, st => (StepResult.cont dep, st)
  | a :: rest, dep, st =>
      match load st a.node.nameOf with
      | (LoadResult.unresolved, st') => visitImportAliases load parents rest dep st'
      | (LoadResult.found l, st') =>
          visitImportAliases load parents rest (markImportUsers parents l a.users dep) st'
      | (LoadResult.error, st') => (StepResult.error, st')
      | (LoadResult.fuelOut, st') => (StepResult.fuelOut, st')

/-- The `generic_visit` traversal restricted to what the visitor reacts
to: `visit_Import` and `visit_ImportFrom` on each import statement in
order, threading the deprecated set and the scan state. -/
def runImports (load : St → String → LoadResult × St)
    (parents : Node → List Node) :
    List ImportStmt → List Node → St → StepResult × St
  | [], dep, st => (StepResult.cont dep, st)
  | ImportStmt.imp aliases :: rest, dep, st =>
      match visitImportAliases load parents aliases dep st with
      | (StepResult.cont dep', st') => runImports load parents rest dep' st'
      | (r, st') => (r, st')
  | ImportStmt.impFrom m names :: rest, dep, st =>
      match load st m with
      | (LoadResult.unresolved, st') => runImports load parents rest dep st'
      | (LoadResult.found l, st') =>
          runImports load parents rest (markImportFromUsers names l dep) st'
      | (LoadResult.error, st') => (StepResult.error, st')
      | (LoadResult.fuelOut, st') => (StepResult.fuelOut, st')

/-- Translation of `visit_Module` on a parsed module: build the def-use
chains and ancestors (carried by `md`), collect the locally deprecated
definitions, then visit the import statements. -/
def analyzeModule (load : St → String → LoadResult × St)
    (decorator : List String) (md : ModuleData) (st : St) : StepResult × St :=
  runImports load md.parents md.imports
    (collect_deprecated decorator md.locs md.parents) st

/-- String comparison used by Python's `sorted`/tuple order: strict
lexicographic comparison of the character lists by code point. -/
def strLt (a b : String) : Prop := a.data < b.data

/-- Reflexive closure of `strLt`, Python's `<=` on strings. -/
def strLe (a b : String) : Prop := a.data ≤ b.data

instance : DecidableRel strLt :=
  fun a b => inferInstanceAs (Decidable (a.data < b.data))

instance : DecidableRel strLe :=
  fun a b => inferInstanceAs (Decidable (a.data ≤ b.data))

instance : IsTrans String strLe :=
  ⟨fun _ _ _ hab hbc => le_trans hab hbc⟩

instance : IsTotal String strLe :=
  ⟨fun a b => le_total a.data b.data⟩

instance : IsAntisymm String strLe :=
  ⟨fun a b hab hba => by
    cases a; cases b
    exact congrArg String.mk (le_antisymm hab hba)⟩

/-- The `dl = {d.name for d in deprecated}` set comprehension followed by
`sorted(dl)` (the source computes `dl` twice; the duplicate line is a
no-op). -/
def sortedNames (dep : List Node) : List String :=
  List.insertionSort strLe ((dep.map Node.nameOf).dedup)

/-- Tail of the fresh-computation path of `load_deprecated_from_module`:
union the locally collected definitions with the deprecated imports,
build the sorted name list, store
`{'generator': 'memestra', 'deprecated': sorted(dl)}` under the module
key, and return the names. -/
def finishFresh (env : Env) (decorator : List String) (md : ModuleData)
    (deprecatedImports : List Node) (key : String) (st : St) : LoadResult × St :=
  let deprecated := deprecatedImports.foldl setAdd
      (collect_deprecated decorator md.locs md.parents)
  let dl := sortedNames deprecated
  (LoadResult.found dl,
    {st with cache := (key, ⟨env.version, "memestra", dl⟩) :: st.cache})

/-- The `with open(module_path)` block of `load_deprecated_from_module`:
parse (logging the read), return `[]` on `UnicodeDecodeError`, let a
`SyntaxError` escape, and otherwise recurse into the module's own imports
only when `recursive` holds and the path is not yet visited, taking the
enclosing contexts of the sub-module's deprecated uses as extra
deprecated nodes. -/
def loadFresh (load : St → String → LoadResult × St) (env : Env)
    (decorator : List String) (recursive : Bool) (path key : String)
    (st : St) : LoadResult × St :=
  let st₁ : St := {st with parseLog := path :: st.parseLog}
  match env.source path with
  | ParseOutcome.undecodable => (LoadResult.found [], st₁)
  | ParseOutcome.malformed => (LoadResult.error, st₁)
  | ParseOutcome.ok md =>
      if recursive ∧ path ∉ st₁.visited then
        let st₂ : St := {st₁ with visited := setAdd st₁.visited path}
        match analyzeModule load decorator md st₂ with
        | (StepResult.cont depSub, st₃) =>
            finishFresh env decorator md
              ((get_deprecated_users depSub md.chains md.parents).map (fun t => t.2.2))
              key st₃
        | (StepResult.error, st₃) => (LoadResult.error, st₃)
        | (StepResult.fuelOut, st₃) => (LoadResult.fuelOut, st₃)
      else
        finishFresh env decorator md [] key st₁

/-- Translation of `ImportResolver.load_deprecated_from_module`, indexed
by a recursion-depth budget (the Python recursion has no such budget; the
termination theorem shows a budget above the number of module paths is
never exhausted).  Resolve the module path, consult the cache — returning
the stored names on a current entry, warning and returning `[]` on a
stale manual entry — and otherwise compute freshly. -/
def load_deprecated_from_module (env : Env) (decorator : List String)
    (recursive : Bool) : Nat → St → String → LoadResult × St
  | 0, st, _ => (LoadResult.fuelOut, st)
  | fuel + 1, st, moduleName =>
      match env.resolve moduleName with
      | none => (LoadResult.unresolved, st)
      | some path =>
          let key := env.keyOf path
          match cacheGet st.cache key with
          | some entry =>
              if entry.version = env.version then
                (LoadResult.found entry.deprecated, st)
              else if entry.generator = "manual" then
                (LoadResult.found [],
                  {st with warnings := (moduleName, key) :: st.warnings})
              else
                loadFresh
                  (fun s n => load_deprecated_from_module env decorator recursive fuel s n)
                  env decorator recursive path key st
          | none =>
              loadFresh
                (fun s n => load_deprecated_from_module env decorator recursive fuel s n)
                env decorator recursive path key st

/-- Result of one `memestra(...)` call. -/
inductive RunResult where
  | ok (out : List (String × String × Nat × Nat))
  | error
  | fuelOut
deriving DecidableEq

/-- Lexicographic combination: strict order on the first component,
then the given order on the second. -/
def lexLe {α β : Type} (ltA : α → α → Prop) (leB : β → β → Prop)
    (x y : α × β) : Prop :=
  ltA x.1 y.1 ∨ (x.1 = y.1 ∧ leB x.2 y.2)

instance {α β : Type} (ltA : α → α → Prop) (leB : β → β → Prop)
    [DecidableEq α] [DecidableRel ltA] [DecidableRel leB] :
    DecidableRel (lexLe ltA leB) :=
  fun x y => inferInstanceAs (Decidable (ltA x.1 y.1 ∨ x.1 = y.1 ∧ leB x.2 y.2))

/-- Python's natural tuple order on `(display_name, source_file, line,
column)`: lexicographic, strings by code point. -/
def tupLE : (String × String × Nat × Nat) → (String × String × Nat × Nat) → Prop :=
  lexLe strLt (lexLe strLt (lexLe (· < ·) (· ≤ ·)))

instance : DecidableRel tupLE :=
  fun x y => inferInstanceAs
    (Decidable (lexLe strLt (lexLe strLt (lexLe (· < ·) (· ≤ ·))) x y))

/-- Translation of the `memestra` entry point: parse the module (the
caller supplies the parsed `md`; a parse error of the top-level file is
outside this function), run the resolver over it with a fresh visited
set and the given cache contents, find the deprecated users, format
`(prettyname, filename, lineno, col_offset)` and sort. -/
def memestra (env : Env) (decorator : List String) (md : ModuleData)
    (fname : String) (recursive : Bool) (fuel : Nat)
    (cache₀ : List (String × CacheEntry)) : RunResult × St :=
  match analyzeModule (load_deprecated_from_module env decorator recursive fuel)
      decorator md ⟨cache₀, [], [], []⟩ with
  | (StepResult.cont dep, st) =>
      let triples := get_deprecated_users dep md.chains md.parents
      (RunResult.ok (List.insertionSort tupLE (triples.map (fun t =>
        (prettyname t.1, fname, t.2.1.lineOf, t.2.1.colOf)))), st)
  | (StepResult.error, st) => (RunResult.error, st)
  | (StepResult.fuelOut, st) => (RunResult.fuelOut, st)

end Memestra

namespace Memestra

/-- Fixture module A: the `import d` / `@d.dep` / `def f` module, with a
module-level call `f()` and no imports of its own beyond the decorator
module (which never resolves). -/
def mdA : ModuleData := ⟨tLocs, tParents, tChains, []⟩

/-- Fixture: the `alias` binding of `from a import f` in module B. -/
def fAliasB : Node := Node.aliasNode 50 "f"

/-- Fixture: the `Name` node of the call `f()` in module B, line 3. -/
def fUseB : Node := Node.nameNode 51 "f" 3 0

/-- Fixture: the `ImportFrom` statement node of module B. -/
def bImpFrom : Node := Node.importFromNode 52 "a"

/-- Fixture ancestor lookup for module B; the call site has no enclosing
definition. -/
def bParents : Node → List Node := fun n =>
  if n = fUseB then [tModule]
  else if n = fAliasB then [tModule, bImpFrom]
  else []

/-- Fixture def-use chains for module B: the marked use node reads
itself's chain entry. -/
def bChains : Node → List Node := fun n => if n = fUseB then [fUseB] else []

/-- Fixture module B: `from a import f` then `f()`. -/
def mdB : ModuleData :=
  ⟨[⟨fAliasB, [fUseB]⟩], bParents, bChains,
    [ImportStmt.impFrom "a" [⟨fAliasB, [fUseB]⟩]]⟩

/-- Fixture environment: module name `a` resolves to `a.py` holding
module A; everything else is unresolvable. -/
def envAB : Env :=
  ⟨fun n => if n = "a" then some "a.py" else none,
   fun p => if p = "a.py" then ParseOutcome.ok mdA else ParseOutcome.malformed,
   id, 1⟩

/-- Fixture environment for C3: module `m` resolves to a file whose
source text is malformed (SyntaxError on parse). -/
def envBad : Env :=
  ⟨fun n => if n = "m" then some "m.py" else none,
   fun _ => ParseOutcome.malformed,
   id, 1⟩

/-- Fixture: an empty module (no bindings, no imports) behind `e` /
`e.py`, for the cache-write-on-empty witness. -/
def envEmpty : Env :=
  ⟨fun n => if n = "e" then some "e.py" else none,
   fun p => if p = "e.py" then ParseOutcome.ok ⟨[], fun _ => [], fun _ => [], []⟩
            else ParseOutcome.malformed,
   id, 1⟩

/-- Fixture module for the import cycle: A imports B. -/
def mdCycA : ModuleData := ⟨[], fun _ => [], fun _ => [], [ImportStmt.impFrom "b" []]⟩

/-- Fixture module for the import cycle: B imports A. -/
def mdCycB : ModuleData := ⟨[], fun _ => [], fun _ => [], [ImportStmt.impFrom "a" []]⟩

/-- Fixture environment with the two-module import cycle `a ↔ b`. -/
def envCyc : Env :=
  ⟨fun n => if n = "a" then some "a.py" else if n = "b" then some "b.py" else none,
   fun p => if p = "a.py" then ParseOutcome.ok mdCycA
            else if p = "b.py" then ParseOutcome.ok mdCycB
            else ParseOutcome.malformed,
   id, 1⟩

/-- Fixture top-level module importing only the undecodable module `u`. -/
def mdTopU : ModuleData := ⟨[], fun _ => [], fun _ => [], [ImportStmt.impFrom "u" []]⟩

/-- Fixture environment where `u` resolves to an undecodable file. -/
def envU : Env :=
  ⟨fun n => if n = "u" then some "u.py" else none,
   fun p => if p = "u.py" then ParseOutcome.undecodable else ParseOutcome.malformed,
   id, 1⟩

/-- Fixture initial state: empty cache, nothing visited. -/
def st0 : St := ⟨[], [], [], []⟩

end Memestra

namespace Memestra

/-- Entry preservation between cache states: everything readable from `c`
is readable unchanged from `c'`. -/
def cacheLeq (c c' : List (String × CacheEntry)) : Prop :=
  ∀ k v, cacheGet c k = some v → cacheGet c' k = some v

/-- Invariant of every cache state reachable from an empty cache within
one environment: entries carry the current format version, and keys of
unparseable paths are absent (the scanner caches nothing for them). -/
def cacheInv (env : Env) (c : List (String × CacheEntry)) : Prop :=
  (∀ k v, cacheGet c k = some v → v.version = env.version)
  ∧ (∀ p, (env.source p = ParseOutcome.undecodable
      ∨ env.source p = ParseOutcome.malformed) →
    cacheGet c (env.keyOf p) = none)

end Memestra

namespace Memestra

/-- A loader preserves cache entries and the cache invariant. -/
def preservesCache (env : Env) (load : St → String → LoadResult × St) : Prop :=
  ∀ st n, cacheInv env st.cache →
    cacheLeq st.cache (load st n).2.cache ∧ cacheInv env (load st n).2.cache

end Memestra

namespace Memestra

/-- Membership in a Python-set insertion. -/
theorem mem_setAdd {α : Type} [DecidableEq α] {l : List α} {d x : α} :
    x ∈ setAdd l d ↔ x ∈ l ∨ x = d := by
  unfold setAdd
  split
  · rename_i h
    constructor
    · exact Or.inl
    · rintro (hx | rfl)
      · exact hx
      · exact h
  · simp [List.mem_append]

/-- Membership in a fold of option-guarded set insertions, the shape of
both per-use loops inside `collect_deprecated`. -/
theorem mem_foldl_optAdd (f : Node → Option Node) (users : List Node) :
    ∀ (init : List Node) (x : Node),
      (x ∈ users.foldl (fun acc u =>
          match f u with
          | some d => setAdd acc d
          | none => acc) init
        ↔ x ∈ init ∨ ∃ u ∈ users, f u = some x) := by
  induction users with
  | nil => intro init x; simp
  | cons u us ih =>
      intro init x
      simp only [List.foldl_cons]
      cases hf : f u with
      | none =>
          rw [ih]
          constructor
          · rintro (h | h)
            · exact Or.inl h
            · exact Or.inr (by
                obtain ⟨v, hv, hfv⟩ := h
                exact ⟨v, List.mem_cons_of_mem _ hv, hfv⟩)
          · rintro (h | ⟨v, hv, hfv⟩)
            · exact Or.inl h
            · rcases List.mem_cons.mp hv with rfl | hv'
              · rw [hf] at hfv; cases hfv
              · exact Or.inr ⟨v, hv', hfv⟩
      | some d =>
          rw [ih]
          rw [mem_setAdd]
          constructor
          · rintro ((h | rfl) | h)
            · exact Or.inl h
            · exact Or.inr ⟨u, List.mem_cons_self _ _, hf⟩
            · obtain ⟨v, hv, hfv⟩ := h
              exact Or.inr ⟨v, List.mem_cons_of_mem _ hv, hfv⟩
          · rintro (h | ⟨v, hv, hfv⟩)
            · exact Or.inl (Or.inl h)
            · rcases List.mem_cons.mp hv with rfl | hv'
              · rw [hf] at hfv
                exact Or.inl (Or.inr (Option.some_injective _ hfv).symm)
              · exact Or.inr ⟨v, hv', hfv⟩

/-- Membership in the outer fold of `collect_deprecated`. -/
theorem mem_foldl_contrib (g : Binding → List Node) (locs : List Binding) :
    ∀ (init : List Node) (x : Node),
      (x ∈ locs.foldl (fun dep b => (g b).foldl setAdd dep) init
        ↔ x ∈ init ∨ ∃ b ∈ locs, x ∈ g b) := by
  have hstep : ∀ (l : List Node) (init : List Node) (x : Node),
      x ∈ l.foldl setAdd init ↔ x ∈ init ∨ x ∈ l := by
    intro l
    induction l with
    | nil => intro init x; simp
    | cons d ds ih =>
        intro init x
        simp only [List.foldl_cons]
        rw [ih, mem_setAdd]
        constructor
        · rintro ((h | rfl) | h)
          · exact Or.inl h
          · exact Or.inr (List.mem_cons_self _ _)
          · exact Or.inr (List.mem_cons_of_mem _ h)
        · rintro (h | h)
          · exact Or.inl (Or.inl h)
          · rcases List.mem_cons.mp h with rfl | h'
            · exact Or.inl (Or.inr rfl)
            · exact Or.inr h'
  induction locs with
  | nil => intro init x; simp
  | cons b bs ih =>
      intro init x
      simp only [List.foldl_cons]
      rw [ih, hstep]
      constructor
      · rintro ((h | h) | h)
        · exact Or.inl h
        · exact Or.inr ⟨b, List.mem_cons_self _ _, h⟩
        · obtain ⟨b', hb', hx⟩ := h
          exact Or.inr ⟨b', List.mem_cons_of_mem _ hb', hx⟩
      · rintro (h | ⟨b', hb', hx⟩)
        · exact Or.inl (Or.inl h)
        · rcases List.mem_cons.mp hb' with rfl | h'
          · exact Or.inl (Or.inr hx)
          · exact Or.inr ⟨b', h', hx⟩

/-- Membership characterization of `collect_deprecated`: exactly the
nodes contributed by some local binding. -/
theorem mem_collect_deprecated {decorator : List String} {locs : List Binding}
    {parents : Node → List Node} {x : Node} :
    x ∈ collect_deprecated decorator locs parents ↔
      ∃ b ∈ locs, x ∈ bindingContrib decorator parents b := by
  unfold collect_deprecated
  rw [mem_foldl_contrib]
  simp

end Memestra


namespace Memestra

/-- Characterization of the segment-consuming loop: it returns `some rest`
exactly when the walked chain starts with one matching `Attribute` node
per remaining decorator segment, in order. -/
theorem consumeAttrs_eq_some_iff (rem : List String) :
    ∀ (rchain rest : List Node),
      (consumeAttrs rem rchain = some rest ↔
        ∃ pre, rchain = pre ++ rest ∧
          List.Forall₂ (fun s p => isAttrNamed p s = true) rem pre) := by
  induction rem with
  | nil =>
      intro rchain rest
      simp only [consumeAttrs, Option.some_inj]
      constructor
      · rintro rfl
        exact ⟨[], by simp, List.Forall₂.nil⟩
      · rintro ⟨pre, hchain, hf⟩
        cases hf
        simpa using hchain
  | cons a rest' ih =>
      intro rchain rest
      cases rchain with
      | nil =>
          simp only [consumeAttrs]
          constructor
          · intro h; cases h
          · rintro ⟨pre, hchain, hf⟩
            cases hf with
            | cons hh ht => simp at hchain
      | cons p rch =>
          constructor
          · intro h
            cases p with
            | attributeNode i v pa l c =>
                have h' : (if pa = a then consumeAttrs rest' rch else none)
                    = some rest := h
                by_cases hpa : pa = a
                · rw [if_pos hpa] at h'
                  obtain ⟨pre, hchain, hf⟩ := (ih rch rest).mp h'
                  refine ⟨Node.attributeNode i v pa l c :: pre, by simp [hchain], ?_⟩
                  exact List.Forall₂.cons (by simp [isAttrNamed, hpa]) hf
                · rw [if_neg hpa] at h'; cases h'
            | functionDef i n l c => exact absurd h (by intro hx; cases hx)
            | asyncFunctionDef i n l c => exact absurd h (by intro hx; cases hx)
            | classDef i n l c => exact absurd h (by intro hx; cases hx)
            | nameNode i n l c => exact absurd h (by intro hx; cases hx)
            | aliasNode i n => exact absurd h (by intro hx; cases hx)
            | importFromNode i m => exact absurd h (by intro hx; cases hx)
            | otherNode i l c => exact absurd h (by intro hx; cases hx)
          · rintro ⟨pre, hchain, hf⟩
            cases hf with
            | cons hh ht =>
                rename_i p' pre'
                have hpp : p = p' ∧ rch = pre' ++ rest := by
                  simpa using hchain
                obtain ⟨rfl, hrch⟩ := hpp
                cases p with
                | attributeNode i v pa l c =>
                    have hpa : pa = a := by simpa [isAttrNamed] using hh
                    show (if pa = a then consumeAttrs rest' rch else none) = some rest
                    rw [if_pos hpa]
                    exact (ih rch rest).mpr ⟨pre', hrch, ht⟩
                | functionDef i n l c => simp [isAttrNamed] at hh
                | asyncFunctionDef i n l c => simp [isAttrNamed] at hh
                | classDef i n l c => simp [isAttrNamed] at hh
                | nameNode i n l c => simp [isAttrNamed] at hh
                | aliasNode i n => simp [isAttrNamed] at hh
                | importFromNode i m => simp [isAttrNamed] at hh
                | otherNode i l c => simp [isAttrNamed] at hh

/-- Characterization of the whole prefix-mode walk for one use: success
with target `d` holds exactly when some suffix of the ancestor chain
consumes every remaining decorator segment, in order, as attribute-access
names, and the node immediately above that suffix is `d`, itself a
function/class/async-function definition. -/
theorem prefixMatchTarget_eq_some_iff (rem : List String) (chain : List Node)
    (d : Node) :
    prefixMatchTarget rem chain = some d ↔
      ∃ rest attrs, chain = rest ++ attrs ∧
        List.Forall₂ (fun s p => isAttrNamed p s = true) rem attrs.reverse ∧
        rest.getLast? = some d ∧ isDefNode d = true := by
  constructor
  · intro h
    unfold prefixMatchTarget at h
    cases hc : consumeAttrs rem chain.reverse with
    | none => rw [hc] at h; cases h
    | some rr =>
        rw [hc] at h
        cases rr with
        | nil => cases h
        | cons p rrest =>
            have h' : (if isDefNode p = true then some p else none) = some d := h
            by_cases hdef : isDefNode p = true
            · rw [if_pos hdef] at h'
              have hd : p = d := Option.some_injective _ h'
              subst hd
              obtain ⟨pre, hchain, hf⟩ := (consumeAttrs_eq_some_iff rem _ _).mp hc
              refine ⟨(p :: rrest).reverse, pre.reverse, ?_, ?_, ?_, hdef⟩
              · have hrr : chain.reverse.reverse = (pre ++ p :: rrest).reverse := by
                  rw [hchain]
                simpa [List.reverse_append] using hrr
              · simpa using hf
              · simp [List.getLast?_concat]
            · rw [if_neg hdef] at h'; cases h'
  · rintro ⟨rest, attrs, hchain, hf, hlast, hdef⟩
    have hc : consumeAttrs rem chain.reverse = some rest.reverse := by
      apply (consumeAttrs_eq_some_iff rem _ _).mpr
      refine ⟨attrs.reverse, ?_, by simpa using hf⟩
      rw [hchain, List.reverse_append]
    unfold prefixMatchTarget
    rw [hc]
    have hhead : rest.reverse.head? = some d := by
      rw [List.head?_reverse]; exact hlast
    cases hrev : rest.reverse with
    | nil => rw [hrev] at hhead; cases hhead
    | cons p t =>
        rw [hrev] at hhead
        have hpd : p = d := by simpa using hhead
        subst hpd
        show (if isDefNode p = true then some p else none) = some p
        rw [if_pos hdef]

end Memestra

namespace Memestra

/-- Contribution of a prefix-mode alias binding: exactly the targets of
successful prefix-mode walks over its uses. -/
theorem mem_bindingContrib_prefixMode (decorator : List String)
    (parents : Node → List Node) (users : List Node) (i : Nat) (nm : String)
    (hpre : splitDots nm = decorator.take (splitDots nm).length) (x : Node) :
    x ∈ bindingContrib decorator parents ⟨Node.aliasNode i nm, users⟩ ↔
      ∃ u ∈ users,
        prefixMatchTarget (decorator.drop (splitDots nm).length) (parents u) = some x := by
  have hred : bindingContrib decorator parents ⟨Node.aliasNode i nm, users⟩ =
      users.foldl (fun acc u =>
        match prefixMatchTarget (decorator.drop (splitDots nm).length) (parents u) with
        | some d => setAdd acc d
        | none => acc) [] := by
    simp only [bindingContrib]
    rw [if_pos hpre]
  rw [hred, mem_foldl_optAdd]
  simp

/-- Contribution of a final-segment-mode alias binding: exactly the
immediate parents of its uses that are definition nodes. -/
theorem mem_bindingContrib_final (decorator : List String)
    (parents : Node → List Node) (users : List Node) (i j : Nat) (nm m : String)
    (hnp : ¬ splitDots nm = decorator.take (splitDots nm).length)
    (hlast : splitDots nm = decorator.drop (decorator.length - 1))
    (himp : (parents (Node.aliasNode i nm)).getLast? = some (Node.importFromNode j m))
    (hm : m = joinDots decorator.dropLast) (x : Node) :
    x ∈ bindingContrib decorator parents ⟨Node.aliasNode i nm, users⟩ ↔
      ∃ u ∈ users, (parents u).getLast? = some x ∧ isDefNode x = true := by
  have hred : bindingContrib decorator parents ⟨Node.aliasNode i nm, users⟩ =
      users.foldl (fun acc u =>
        match (parents u).getLast? with
        | some p => if isDefNode p then setAdd acc p else acc
        | none => acc) [] := by
    simp only [bindingContrib]
    rw [if_neg hnp, if_pos hlast, himp]
    show (if m = joinDots decorator.dropLast then
        users.foldl (fun acc u =>
          match (parents u).getLast? with
          | some p => if isDefNode p = true then setAdd acc p else acc
          | none => acc) [] else []) = _
    rw [if_pos hm]
  have hbody : (fun (acc : List Node) (u : Node) =>
        match (parents u).getLast? with
        | some p => if isDefNode p then setAdd acc p else acc
        | none => acc)
      = (fun (acc : List Node) (u : Node) =>
        match (match (parents u).getLast? with
               | some p => if isDefNode p then some p else none
               | none => none) with
        | some d => setAdd acc d
        | none => acc) := by
    funext acc u
    cases (parents u).getLast? with
    | none => rfl
    | some p =>
        by_cases hdef : isDefNode p = true
        · simp [hdef]
        · simp [hdef]
  rw [hred, hbody, mem_foldl_optAdd]
  simp only [List.not_mem_nil, false_or]
  constructor
  · rintro ⟨u, hu, hopt⟩
    refine ⟨u, hu, ?_⟩
    cases hg : (parents u).getLast? with
    | none => rw [hg] at hopt; cases hopt
    | some p =>
        rw [hg] at hopt
        have hopt' : (if isDefNode p = true then some p else none) = some x := hopt
        by_cases hdef : isDefNode p = true
        · rw [if_pos hdef] at hopt'
          have hpx : p = x := Option.some_injective _ hopt'
          subst hpx
          exact ⟨rfl, hdef⟩
        · rw [if_neg hdef] at hopt'; cases hopt'
  · rintro ⟨u, hu, hg, hdef⟩
    refine ⟨u, hu, ?_⟩
    rw [hg]
    show (if isDefNode x = true then some x else none) = some x
    rw [if_pos hdef]

end Memestra

namespace Memestra

/-- Claim C1 counterexample input: all premises of the prefix-mode claim
hold — the alias imports a prefix of the decorator path, the single
remaining segment is consumed in order by the attribute chain, and a
function definition (`tF`) encloses the matched chain — yet `tF` is not
collected, because the node immediately above the chain is the decorator
`Call`, not the definition: `collect_deprecated` checks only
`parents[-1]`, it never searches upward for the nearest definition. -/
theorem prefix_mode_nearest_enclosing_counterexample :
    (splitDots "d" = (["d", "dep"] : List String).take (splitDots "d").length)
    ∧ cxNameD ∈ cxB.users
    ∧ cxParents cxNameD = [tModule, tF, cxCall] ++ [cxAttr]
    ∧ List.Forall₂ (fun s p => isAttrNamed p s = true)
        ((["d", "dep"] : List String).drop (splitDots "d").length) [cxAttr]
    ∧ isDefNode tF = true
    ∧ isDefNode cxCall = false
    ∧ tF ∉ collect_deprecated ["d", "dep"] [cxB] cxParents := by
  refine ⟨by decide, by decide, by decide, ?_, by decide, by decide, by decide⟩
  exact List.Forall₂.cons (by decide) List.Forall₂.nil

/-- Claim C1 (amended): for a local import binding whose dotted path is a
prefix of the decorator path and any use of it, the prefix-mode walk
succeeds with target `d` exactly when a suffix of the ancestor chain
consumes every remaining decorator segment, in order, as attribute-access
names and the node immediately above that suffix is `d`, itself a
function/class/async-function definition (so a definition further up does
not count); on success `d` is added to the module's deprecated set. -/
theorem prefix_mode_matching (decorator : List String) (locs : List Binding)
    (parents : Node → List Node) (b : Binding) (hb : b ∈ locs)
    (i : Nat) (nm : String) (hnode : b.node = Node.aliasNode i nm)
    (hpre : splitDots nm = decorator.take (splitDots nm).length)
    (u : Node) (hu : u ∈ b.users) :
    (∀ d, prefixMatchTarget (decorator.drop (splitDots nm).length) (parents u) = some d ↔
        ∃ rest attrs, parents u = rest ++ attrs ∧
          List.Forall₂ (fun s p => isAttrNamed p s = true)
            (decorator.drop (splitDots nm).length) attrs.reverse ∧
          rest.getLast? = some d ∧ isDefNode d = true)
    ∧ (∀ d, prefixMatchTarget (decorator.drop (splitDots nm).length) (parents u) = some d →
        d ∈ collect_deprecated decorator locs parents) := by
  constructor
  · intro d
    exact prefixMatchTarget_eq_some_iff _ _ _
  · intro d hd
    apply mem_collect_deprecated.mpr
    refine ⟨b, hb, ?_⟩
    obtain ⟨bn, bu⟩ := b
    simp only at hnode
    subst hnode
    exact (mem_bindingContrib_prefixMode decorator parents bu i nm hpre d).mpr ⟨u, hu, hd⟩

/-- Claim C1 witness: the standard `import d` / `@d.dep` module, where the
walk target is `def f` and `f` lands in the deprecated set. -/
theorem prefix_mode_matching_witness :
    ((⟨tAlias, [tNameD]⟩ : Binding) ∈ tLocs
      ∧ splitDots "d" = (["d", "dep"] : List String).take (splitDots "d").length
      ∧ tNameD ∈ (⟨tAlias, [tNameD]⟩ : Binding).users)
    ∧ tF ∈ collect_deprecated ["d", "dep"] tLocs tParents := by
  refine ⟨⟨by decide, by decide, by decide⟩, ?_⟩
  exact (prefix_mode_matching ["d", "dep"] tLocs tParents ⟨tAlias, [tNameD]⟩
    (by decide) 4 "d" rfl (by decide) tNameD (by decide)).2 tF (by decide)

/-- Claim C6 counterexample input: decorator path `d.d`, binding from
`from d import d`.  Every hypothesis of the final-segment claim holds —
the imported name equals the last decorator segment, the `ImportFrom`
module equals the decorator path minus its last segment, and the use's
immediate enclosing node is `def h` — yet `h` is not collected: the alias
path also matches a *prefix* of the decorator path, and the `elif` in
`collect_deprecated` lets prefix mode shadow final-segment mode. -/
theorem final_segment_mode_counterexample :
    (splitDots "d" = (["d", "d"] : List String).drop ((["d", "d"] : List String).length - 1))
    ∧ (cxParents3 cxAliasD2).getLast? = some (Node.importFromNode 22 "d")
    ∧ "d" = joinDots ((["d", "d"] : List String).dropLast)
    ∧ cxNameD2 ∈ (⟨cxAliasD2, [cxNameD2]⟩ : Binding).users
    ∧ (cxParents3 cxNameD2).getLast? = some cxH
    ∧ isDefNode cxH = true
    ∧ cxH ∉ collect_deprecated ["d", "d"] [⟨cxAliasD2, [cxNameD2]⟩] cxParents3 := by
  decide

/-- Claim C6 (amended): for a `from`-import binding whose imported name
equals the last decorator segment, *does not* also equal a prefix of the
decorator path (prefix mode shadows this branch), and whose `ImportFrom`
statement names the decorator path minus its last segment, the binding
contributes exactly the immediate enclosing definition of each of its
uses: a use whose immediate parent is a function/class/async-function
definition adds that definition to the deprecated set, and a use whose
immediate parent is not such a definition contributes nothing. -/
theorem final_segment_mode_matching (decorator : List String) (locs : List Binding)
    (parents : Node → List Node) (b : Binding) (hb : b ∈ locs)
    (i : Nat) (nm : String) (hnode : b.node = Node.aliasNode i nm)
    (hnp : ¬ splitDots nm = decorator.take (splitDots nm).length)
    (hlast : splitDots nm = decorator.drop (decorator.length - 1))
    (j : Nat) (m : String)
    (himp : (parents b.node).getLast? = some (Node.importFromNode j m))
    (hm : m = joinDots decorator.dropLast) :
    (∀ d, d ∈ bindingContrib decorator parents b ↔
        ∃ u ∈ b.users, (parents u).getLast? = some d ∧ isDefNode d = true)
    ∧ ∀ d, d ∈ bindingContrib decorator parents b →
        d ∈ collect_deprecated decorator locs parents := by
  obtain ⟨bn, bu⟩ := b
  simp only at hnode
  subst hnode
  constructor
  · intro d
    exact mem_bindingContrib_final decorator parents bu i j nm m hnp hlast himp hm d
  · intro d hd
    exact mem_collect_deprecated.mpr ⟨_, hb, hd⟩

/-- Claim C6 witness: the standard `from d import dep` / `@dep` module,
where `def g` lands in the deprecated set through its immediate parent. -/
theorem final_segment_mode_matching_witness :
    ((¬ splitDots "dep" = (["d", "dep"] : List String).take (splitDots "dep").length)
      ∧ (tParents2 tAliasDep).getLast? = some (Node.importFromNode 10 "d")
      ∧ "d" = joinDots ((["d", "dep"] : List String).dropLast))
    ∧ tG ∈ collect_deprecated ["d", "dep"] [⟨tAliasDep, [tNameDep]⟩] tParents2 := by
  refine ⟨⟨by decide, by decide, by decide⟩, ?_⟩
  have h := final_segment_mode_matching ["d", "dep"] [⟨tAliasDep, [tNameDep]⟩]
    tParents2 ⟨tAliasDep, [tNameDep]⟩ (by decide) 11 "dep" rfl (by decide) (by decide)
    10 "d" (by decide) (by decide)
  exact h.2 tG ((h.1 tG).mpr ⟨tNameDep, by decide, by decide, by decide⟩)

end Memestra

namespace Memestra

/-- Membership characterization of `get_deprecated_users`: a triple is
emitted exactly for a deprecated node, one of its readers none of whose
enclosing definition ancestors is deprecated, with the innermost enclosing
definition (or the reader itself) as third component. -/
theorem mem_get_deprecated_users {dep : List Node} {chains parents : Node → List Node}
    {D u c : Node} :
    (D, u, c) ∈ get_deprecated_users dep chains parents ↔
      D ∈ dep ∧ u ∈ chains D ∧
      ((parents u).filter isDefNode).any (fun f => decide (f ∈ dep)) = false ∧
      c = (((parents u).filter isDefNode).getLast?).getD u := by
  unfold get_deprecated_users
  rw [List.mem_flatMap]
  constructor
  · rintro ⟨d, hd, hmem⟩
    rw [List.mem_map] at hmem
    obtain ⟨u', hu', heq⟩ := hmem
    rw [List.mem_filter] at hu'
    obtain ⟨humem, hfilt⟩ := hu'
    cases heq
    exact ⟨hd, humem, by simpa using hfilt, rfl⟩
  · rintro ⟨hD, hu, hany, rfl⟩
    refine ⟨D, hD, ?_⟩
    rw [List.mem_map]
    exact ⟨u, List.mem_filter.mpr ⟨hu, by simpa using hany⟩, rfl⟩

/-- Sum across a duplicate-free list where exactly one element contributes
`1` and the rest contribute `0`. -/
theorem sum_map_eq_one_of_unique {α : Type} [DecidableEq α] (l : List α)
    (g : α → Nat) (D : α) (hnd : l.Nodup) (hD : D ∈ l) (h1 : g D = 1)
    (h0 : ∀ d ∈ l, d ≠ D → g d = 0) : (l.map g).sum = 1 := by
  induction l with
  | nil => cases hD
  | cons a as ih =>
      rw [List.map_cons, List.sum_cons]
      rcases List.mem_cons.mp hD with rfl | hDas
      · rw [h1]
        have hzero : (as.map g).sum = 0 := by
          apply List.sum_eq_zero
          intro x hx
          rw [List.mem_map] at hx
          obtain ⟨d, hdas, rfl⟩ := hx
          apply h0 d (List.mem_cons_of_mem _ hdas)
          intro hda
          subst hda
          exact (List.nodup_cons.mp hnd).1 hdas
        rw [hzero]
      · have ha : g a = 0 := by
          apply h0 a (List.mem_cons_self _ _)
          intro haD
          subst haD
          exact (List.nodup_cons.mp hnd).1 hDas
        rw [ha, ih (List.nodup_cons.mp hnd).2 hDas
          (fun d hd hne => h0 d (List.mem_cons_of_mem _ hd) hne)]

/-- Counting images of an injective map, stated over any lawful `BEq`
instance so it applies at the instances a product type picks up. -/
theorem count_map_inj {α β : Type} [DecidableEq α] [BEq β] [LawfulBEq β]
    (l : List α) (f : α → β) (hf : Function.Injective f) (x : α) :
    (l.map f).count (f x) = l.count x := by
  induction l with
  | nil => rfl
  | cons a as ih =>
      rw [List.map_cons, List.count_cons, List.count_cons, ih]
      by_cases hax : a = x
      · subst hax; simp
      · have hfa : (f a == f x) = false := by
          rw [beq_eq_false_iff_ne]
          exact fun h => hax (hf h)
        have haxb : (a == x) = false := by
          rw [beq_eq_false_iff_ne]
          exact hax
        rw [hfa, haxb]

/-- Claim C2: for a deprecated definition `D` and a reader `u` appearing
once among `D`'s readers, `get_deprecated_users` emits no `(D, u, _)`
triple when some enclosing definition ancestor of `u` is deprecated, and
otherwise emits exactly one, whose third component is the innermost
enclosing definition of `u` when one exists and `u` itself otherwise. -/
theorem no_self_flagging (dep : List Node) (chains parents : Node → List Node)
    (D u : Node) (hnd : dep.Nodup) (hD : D ∈ dep)
    (hcount : (chains D).count u = 1) :
    (((parents u).filter isDefNode).any (fun f => decide (f ∈ dep)) = true →
       ∀ c, (D, u, c) ∉ get_deprecated_users dep chains parents)
    ∧ (((parents u).filter isDefNode).any (fun f => decide (f ∈ dep)) = false →
       (get_deprecated_users dep chains parents).count
           (D, u, (((parents u).filter isDefNode).getLast?).getD u) = 1
       ∧ ∀ c, (D, u, c) ∈ get_deprecated_users dep chains parents →
           c = (((parents u).filter isDefNode).getLast?).getD u) := by
  constructor
  · intro hany c hmem
    have h := mem_get_deprecated_users.mp hmem
    rw [h.2.2.1] at hany
    cases hany
  · intro hany
    constructor
    · unfold get_deprecated_users
      rw [List.count_flatMap]
      apply sum_map_eq_one_of_unique dep _ D hnd hD
      · simp only [Function.comp_apply]
        have hmk : ((D, u, (((parents u).filter isDefNode).getLast?).getD u) : Node × Node × Node)
            = (fun v => (D, v, (((parents v).filter isDefNode).getLast?).getD v)) u := rfl
        have hinj : Function.Injective
            (fun v : Node =>
              ((D, v, (((parents v).filter isDefNode).getLast?).getD v) : Node × Node × Node)) :=
          fun a b hab => by
            simpa using congrArg (fun t : Node × Node × Node => t.2.1) hab
        rw [hmk]
        refine Eq.trans (count_map_inj _ _ hinj u) ?_
        rw [List.count_filter (by simpa using hany)]
        exact hcount
      · intro d hd hne
        simp only [Function.comp_apply]
        apply List.count_eq_zero.mpr
        intro hmem
        rw [List.mem_map] at hmem
        obtain ⟨v, hv, heq⟩ := hmem
        exact hne (congrArg (fun t : Node × Node × Node => t.1) heq)
    · intro c hmem
      exact (mem_get_deprecated_users.mp hmem).2.2.2

/-- Claim C2 witness: `f` deprecated, one module-level call site, exactly
one reported triple. -/
theorem no_self_flagging_witness :
    (([tF] : List Node).Nodup ∧ tF ∈ [tF] ∧ (tChains tF).count tUseF = 1
      ∧ ((tParents tUseF).filter isDefNode).any (fun f => decide (f ∈ [tF])) = false)
    ∧ (get_deprecated_users [tF] tChains tParents).count (tF, tUseF, tUseF) = 1 := by
  refine ⟨⟨by decide, by decide, by decide, by decide⟩, ?_⟩
  exact ((no_self_flagging [tF] tChains tParents tF tUseF (by decide) (by decide)
    (by decide)).2 (by decide)).1

end Memestra



namespace Memestra

/-- Evaluation: unresolvable module names return `None` untouched. -/
theorem load_eq_unresolved (env : Env) (decorator : List String)
    (recursive : Bool) (fuel : Nat) (st : St) (n : String)
    (hres : env.resolve n = none) :
    load_deprecated_from_module env decorator recursive (fuel + 1) st n
      = (LoadResult.unresolved, st) := by
  simp only [load_deprecated_from_module]
  rw [hres]

/-- Evaluation: a cache hit with the current format version returns the
stored names and leaves the state untouched. -/
theorem load_eq_hit (env : Env) (decorator : List String) (recursive : Bool)
    (fuel : Nat) (st : St) (n p : String) (e : CacheEntry)
    (hres : env.resolve n = some p)
    (hhit : cacheGet st.cache (env.keyOf p) = some e)
    (hver : e.version = env.version) :
    load_deprecated_from_module env decorator recursive (fuel + 1) st n
      = (LoadResult.found e.deprecated, st) := by
  simp only [load_deprecated_from_module]
  rw [hres]
  show (match cacheGet st.cache (env.keyOf p) with
    | some entry =>
        if entry.version = env.version then (LoadResult.found entry.deprecated, st)
        else if entry.generator = "manual" then
          (LoadResult.found [], {st with warnings := (n, env.keyOf p) :: st.warnings})
        else loadFresh
          (fun s m => load_deprecated_from_module env decorator recursive fuel s m)
          env decorator recursive p (env.keyOf p) st
    | none => loadFresh
          (fun s m => load_deprecated_from_module env decorator recursive fuel s m)
          env decorator recursive p (env.keyOf p) st) = (LoadResult.found e.deprecated, st)
  rw [hhit]
  show (if e.version = env.version then (LoadResult.found e.deprecated, st)
    else if e.generator = "manual" then
      (LoadResult.found [], {st with warnings := (n, env.keyOf p) :: st.warnings})
    else loadFresh
      (fun s m => load_deprecated_from_module env decorator recursive fuel s m)
      env decorator recursive p (env.keyOf p) st) = (LoadResult.found e.deprecated, st)
  rw [if_pos hver]

/-- Evaluation: a stale manual cache entry warns and returns the empty
name set, leaving cache, visited set and parse log untouched. -/
theorem load_eq_manual (env : Env) (decorator : List String) (recursive : Bool)
    (fuel : Nat) (st : St) (n p : String) (e : CacheEntry)
    (hres : env.resolve n = some p)
    (hhit : cacheGet st.cache (env.keyOf p) = some e)
    (hver : e.version ≠ env.version) (hgen : e.generator = "manual") :
    load_deprecated_from_module env decorator recursive (fuel + 1) st n
      = (LoadResult.found [], {st with warnings := (n, env.keyOf p) :: st.warnings}) := by
  simp only [load_deprecated_from_module]
  rw [hres]
  show (match cacheGet st.cache (env.keyOf p) with
    | some entry =>
        if entry.version = env.version then (LoadResult.found entry.deprecated, st)
        else if entry.generator = "manual" then
          (LoadResult.found [], {st with warnings := (n, env.keyOf p) :: st.warnings})
        else loadFresh
          (fun s m => load_deprecated_from_module env decorator recursive fuel s m)
          env decorator recursive p (env.keyOf p) st
    | none => loadFresh
          (fun s m => load_deprecated_from_module env decorator recursive fuel s m)
          env decorator recursive p (env.keyOf p) st)
    = (LoadResult.found [], {st with warnings := (n, env.keyOf p) :: st.warnings})
  rw [hhit]
  show (if e.version = env.version then (LoadResult.found e.deprecated, st)
    else if e.generator = "manual" then
      (LoadResult.found [], {st with warnings := (n, env.keyOf p) :: st.warnings})
    else loadFresh
      (fun s m => load_deprecated_from_module env decorator recursive fuel s m)
      env decorator recursive p (env.keyOf p) st)
    = (LoadResult.found [], {st with warnings := (n, env.keyOf p) :: st.warnings})
  rw [if_neg hver, if_pos hgen]

/-- Evaluation: a stale non-manual cache entry falls through to the fresh
computation, exactly as an absent entry does. -/
theorem load_eq_stale (env : Env) (decorator : List String) (recursive : Bool)
    (fuel : Nat) (st : St) (n p : String) (e : CacheEntry)
    (hres : env.resolve n = some p)
    (hhit : cacheGet st.cache (env.keyOf p) = some e)
    (hver : e.version ≠ env.version) (hgen : e.generator ≠ "manual") :
    load_deprecated_from_module env decorator recursive (fuel + 1) st n
      = loadFresh
          (fun s m => load_deprecated_from_module env decorator recursive fuel s m)
          env decorator recursive p (env.keyOf p) st := by
  simp only [load_deprecated_from_module]
  rw [hres]
  show (match cacheGet st.cache (env.keyOf p) with
    | some entry =>
        if entry.version = env.version then (LoadResult.found entry.deprecated, st)
        else if entry.generator = "manual" then
          (LoadResult.found [], {st with warnings := (n, env.keyOf p) :: st.warnings})
        else loadFresh
          (fun s m => load_deprecated_from_module env decorator recursive fuel s m)
          env decorator recursive p (env.keyOf p) st
    | none => loadFresh
          (fun s m => load_deprecated_from_module env decorator recursive fuel s m)
          env decorator recursive p (env.keyOf p) st) = _
  rw [hhit]
  show (if e.version = env.version then (LoadResult.found e.deprecated, st)
    else if e.generator = "manual" then
      (LoadResult.found [], {st with warnings := (n, env.keyOf p) :: st.warnings})
    else loadFresh
      (fun s m => load_deprecated_from_module env decorator recursive fuel s m)
      env decorator recursive p (env.keyOf p) st) = _
  rw [if_neg hver, if_neg hgen]

/-- Evaluation: a cache miss goes to the fresh computation. -/
theorem load_eq_miss (env : Env) (decorator : List String) (recursive : Bool)
    (fuel : Nat) (st : St) (n p : String)
    (hres : env.resolve n = some p)
    (hmiss : cacheGet st.cache (env.keyOf p) = none) :
    load_deprecated_from_module env decorator recursive (fuel + 1) st n
      = loadFresh
          (fun s m => load_deprecated_from_module env decorator recursive fuel s m)
          env decorator recursive p (env.keyOf p) st := by
  simp only [load_deprecated_from_module]
  rw [hres]
  show (match cacheGet st.cache (env.keyOf p) with
    | some entry =>
        if entry.version = env.version then (LoadResult.found entry.deprecated, st)
        else if entry.generator = "manual" then
          (LoadResult.found [], {st with warnings := (n, env.keyOf p) :: st.warnings})
    else loadFresh
          (fun s m => load_deprecated_from_module env decorator recursive fuel s m)
          env decorator recursive p (env.keyOf p) st
    | none => loadFresh
          (fun s m => load_deprecated_from_module env decorator recursive fuel s m)
          env decorator recursive p (env.keyOf p) st) = _
  rw [hmiss]

end Memestra

namespace Memestra

/-- Evaluation: an undecodable module contributes the empty name list,
logging the read but writing nothing to the cache. -/
theorem loadFresh_eq_undecodable (load : St → String → LoadResult × St)
    (env : Env) (decorator : List String) (recursive : Bool)
    (path key : String) (st : St)
    (hsrc : env.source path = ParseOutcome.undecodable) :
    loadFresh load env decorator recursive path key st
      = (LoadResult.found [], {st with parseLog := path :: st.parseLog}) := by
  simp only [loadFresh]
  rw [hsrc]

/-- Evaluation: a malformed module raises, logging the read. -/
theorem loadFresh_eq_malformed (load : St → String → LoadResult × St)
    (env : Env) (decorator : List String) (recursive : Bool)
    (path key : String) (st : St)
    (hsrc : env.source path = ParseOutcome.malformed) :
    loadFresh load env decorator recursive path key st
      = (LoadResult.error, {st with parseLog := path :: st.parseLog}) := by
  simp only [loadFresh]
  rw [hsrc]

/-- Evaluation: without recursion (flag off or path already visited), a
parsed module is analyzed locally with no deprecated imports. -/
theorem loadFresh_eq_local (load : St → String → LoadResult × St)
    (env : Env) (decorator : List String) (recursive : Bool)
    (path key : String) (st : St) (md : ModuleData)
    (hsrc : env.source path = ParseOutcome.ok md)
    (hng : ¬ (recursive = true ∧ path ∉ st.visited)) :
    loadFresh load env decorator recursive path key st
      = finishFresh env decorator md [] key {st with parseLog := path :: st.parseLog} := by
  simp only [loadFresh]
  rw [hsrc]
  show (if recursive = true ∧ path ∉ st.visited then _ else _) = _
  rw [if_neg hng]

/-- Evaluation: the recursive branch hands the sub-analysis result to the
finishing step, with the path freshly added to the visited set. -/
theorem loadFresh_eq_recursive (load : St → String → LoadResult × St)
    (env : Env) (decorator : List String) (recursive : Bool)
    (path key : String) (st : St) (md : ModuleData)
    (hsrc : env.source path = ParseOutcome.ok md)
    (hg : recursive = true ∧ path ∉ st.visited) :
    loadFresh load env decorator recursive path key st
      = (match analyzeModule load decorator md
            {st with parseLog := path :: st.parseLog,
                     visited := setAdd st.visited path} with
         | (StepResult.cont depSub, st₃) =>
             finishFresh env decorator md
               ((get_deprecated_users depSub md.chains md.parents).map (fun t => t.2.2))
               key st₃
         | (StepResult.error, st₃) => (LoadResult.error, st₃)
         | (StepResult.fuelOut, st₃) => (LoadResult.fuelOut, st₃)) := by
  simp only [loadFresh]
  rw [hsrc]
  show (if recursive = true ∧ path ∉ st.visited then _ else _) = _
  rw [if_pos hg]

/-- Evaluation: the finishing step in closed form. -/
theorem finishFresh_eq (env : Env) (decorator : List String) (md : ModuleData)
    (deprecatedImports : List Node) (key : String) (st : St) :
    finishFresh env decorator md deprecatedImports key st
      = (LoadResult.found (sortedNames (deprecatedImports.foldl setAdd
            (collect_deprecated decorator md.locs md.parents))),
         {st with cache := (key, ⟨env.version, "memestra",
            sortedNames (deprecatedImports.foldl setAdd
              (collect_deprecated decorator md.locs md.parents))⟩) :: st.cache}) := rfl

end Memestra

namespace Memestra

/-- Reading the cache just after a write of the same key. -/
theorem cacheGet_cons_self (c : List (String × CacheEntry)) (k : String)
    (e : CacheEntry) : cacheGet ((k, e) :: c) k = some e := by
  simp [cacheGet, List.find?]

/-- The stored name list is sorted. -/
theorem sortedNames_sorted (dep : List Node) :
    List.Sorted strLe (sortedNames dep) :=
  List.sorted_insertionSort strLe _

/-- The stored name list is duplicate-free. -/
theorem sortedNames_nodup (dep : List Node) : (sortedNames dep).Nodup :=
  ((List.perm_insertionSort strLe _).nodup_iff).mpr (List.nodup_dedup _)

/-- Claim C3 counterexample: a resolvable imported module whose source is
malformed makes `load_deprecated_from_module` raise (`SyntaxError` is not
caught; only `UnicodeDecodeError` is), rather than contribute an empty
set, so the enclosing scan fails. -/
theorem malformed_import_counterexample :
    envBad.resolve "m" = some "m.py"
    ∧ envBad.source "m.py" = ParseOutcome.malformed
    ∧ (load_deprecated_from_module envBad ["d", "dep"] true 3 st0 "m").1
        = LoadResult.error
    ∧ (memestra envBad ["d", "dep"]
        ⟨[], fun _ => [], fun _ => [], [ImportStmt.impFrom "m" []]⟩
        "t.py" true 3 []).1 = RunResult.error := by
  exact ⟨by decide, rfl, by decide, by decide⟩

/-- Claim C3 (amended): for an imported module that resolves to a file
and misses the cache, undecodable source text is non-fatal and yields the
empty contribution without caching anything, while malformed source text
(a parse error) propagates as an exception out of the load. -/
theorem bad_source_handling (env : Env) (decorator : List String)
    (recursive : Bool) (fuel : Nat) (st : St) (n p : String)
    (hres : env.resolve n = some p)
    (hmiss : cacheGet st.cache (env.keyOf p) = none) :
    (env.source p = ParseOutcome.undecodable →
      load_deprecated_from_module env decorator recursive (fuel + 1) st n
        = (LoadResult.found [], {st with parseLog := p :: st.parseLog}))
    ∧ (env.source p = ParseOutcome.malformed →
      load_deprecated_from_module env decorator recursive (fuel + 1) st n
        = (LoadResult.error, {st with parseLog := p :: st.parseLog})) := by
  constructor
  · intro hsrc
    rw [load_eq_miss env decorator recursive fuel st n p hres hmiss]
    exact loadFresh_eq_undecodable _ env decorator recursive p (env.keyOf p) st hsrc
  · intro hsrc
    rw [load_eq_miss env decorator recursive fuel st n p hres hmiss]
    exact loadFresh_eq_malformed _ env decorator recursive p (env.keyOf p) st hsrc

/-- Claim C3 witness: the undecodable module `u` yields the empty
contribution with nothing cached. -/
theorem bad_source_handling_witness :
    (envU.resolve "u" = some "u.py"
      ∧ cacheGet st0.cache (envU.keyOf "u.py") = none
      ∧ envU.source "u.py" = ParseOutcome.undecodable)
    ∧ load_deprecated_from_module envU ["d", "dep"] true 3 st0 "u"
        = (LoadResult.found [], {st0 with parseLog := ["u.py"]}) := by
  refine ⟨⟨by decide, by decide, rfl⟩, ?_⟩
  exact (bad_source_handling envU ["d", "dep"] true 2 st0 "u" "u.py"
    (by decide) (by decide)).1 rfl

/-- Claim C4: on a hit with matching version the stored names come back
as-is with the state untouched; a stale manual entry warns (recording the
module name and key) and returns the empty name set without reading or
writing anything else; a stale non-manual entry behaves exactly like an
absent one — the module is recomputed freshly with no warning. -/
theorem cache_validation_policy (env : Env) (decorator : List String)
    (recursive : Bool) (fuel : Nat) (st : St) (n p : String) (e : CacheEntry)
    (hres : env.resolve n = some p)
    (hhit : cacheGet st.cache (env.keyOf p) = some e) :
    (e.version = env.version →
      load_deprecated_from_module env decorator recursive (fuel + 1) st n
        = (LoadResult.found e.deprecated, st))
    ∧ (e.version ≠ env.version → e.generator = "manual" →
      load_deprecated_from_module env decorator recursive (fuel + 1) st n
        = (LoadResult.found [], {st with warnings := (n, env.keyOf p) :: st.warnings}))
    ∧ (e.version ≠ env.version → e.generator ≠ "manual" →
      load_deprecated_from_module env decorator recursive (fuel + 1) st n
        = loadFresh
            (fun s m => load_deprecated_from_module env decorator recursive fuel s m)
            env decorator recursive p (env.keyOf p) st)
    ∧ (∀ st' : St, cacheGet st'.cache (env.keyOf p) = none →
      load_deprecated_from_module env decorator recursive (fuel + 1) st' n
        = loadFresh
            (fun s m => load_deprecated_from_module env decorator recursive fuel s m)
            env decorator recursive p (env.keyOf p) st') := by
  refine ⟨?_, ?_, ?_, ?_⟩
  · intro hver
    exact load_eq_hit env decorator recursive fuel st n p e hres hhit hver
  · intro hver hgen
    exact load_eq_manual env decorator recursive fuel st n p e hres hhit hver hgen
  · intro hver hgen
    exact load_eq_stale env decorator recursive fuel st n p e hres hhit hver hgen
  · intro st' hmiss
    exact load_eq_miss env decorator recursive fuel st' n p hres hmiss

/-- Claim C4 witness: a stale manual entry for `a.py` produces the
warning and the empty name set without touching the cache. -/
theorem cache_validation_policy_witness :
    (envAB.resolve "a" = some "a.py"
      ∧ cacheGet [("a.py", ⟨0, "manual", ["x"]⟩)] (envAB.keyOf "a.py")
          = some ⟨0, "manual", ["x"]⟩
      ∧ (0 : Nat) ≠ envAB.version)
    ∧ load_deprecated_from_module envAB ["d", "dep"] true 3
        ⟨[("a.py", ⟨0, "manual", ["x"]⟩)], [], [], []⟩ "a"
      = (LoadResult.found [],
          ⟨[("a.py", ⟨0, "manual", ["x"]⟩)], [], [("a", "a.py")], []⟩) := by
  refine ⟨⟨by decide, by decide, by decide⟩, ?_⟩
  exact (cache_validation_policy envAB ["d", "dep"] true 2
    ⟨[("a.py", ⟨0, "manual", ["x"]⟩)], [], [], []⟩ "a" "a.py" ⟨0, "manual", ["x"]⟩
    (by decide) (by decide)).2.1 (by decide) (by decide)

/-- Claim C5 counterexample: with `recursive := False`, module B's scan
still reports the use of `f`, which module A defines and decorates — one
level of cross-module propagation happens in a non-recursive scan, as the
source's own docstring states ("Otherwise, only one level of import is
checked"). -/
theorem recursive_gating_counterexample :
    (memestra envAB ["d", "dep"] mdB "b.py" false 3 []).1
      = RunResult.ok [("f", "b.py", 3, 0)]
    ∧ (memestra envAB ["d", "dep"] mdB "b.py" false 3 []).1 ≠ RunResult.ok [] := by
  decide

/-- Claim C5 (amended): the recursive flag gates only the transitive
part.  With `recursive := false`, loading a directly imported module
computes its deprecated names from its own local decorations only — its
imports are never followed, whatever the visited set — and those names
are still returned to the importer for marking. -/
theorem non_recursive_one_level (env : Env) (decorator : List String)
    (fuel : Nat) (st : St) (n p : String) (md : ModuleData)
    (hres : env.resolve n = some p)
    (hmiss : cacheGet st.cache (env.keyOf p) = none)
    (hsrc : env.source p = ParseOutcome.ok md) :
    load_deprecated_from_module env decorator false (fuel + 1) st n
      = (LoadResult.found (sortedNames (collect_deprecated decorator md.locs md.parents)),
         {st with parseLog := p :: st.parseLog,
                  cache := (env.keyOf p, ⟨env.version, "memestra",
                    sortedNames (collect_deprecated decorator md.locs md.parents)⟩)
                    :: st.cache}) := by
  rw [load_eq_miss env decorator false fuel st n p hres hmiss]
  rw [loadFresh_eq_local _ env decorator false p (env.keyOf p) st md hsrc
    (by simp)]
  rw [finishFresh_eq]
  rfl

/-- Claim C5 witness: loading module A non-recursively returns its local
deprecated name `f`. -/
theorem non_recursive_one_level_witness :
    (envAB.resolve "a" = some "a.py"
      ∧ envAB.source "a.py" = ParseOutcome.ok mdA)
    ∧ load_deprecated_from_module envAB ["d", "dep"] false 3 st0 "a"
      = (LoadResult.found ["f"],
         {st0 with parseLog := ["a.py"],
                   cache := [("a.py", ⟨1, "memestra", ["f"]⟩)]}) := by
  refine ⟨⟨by decide, rfl⟩, ?_⟩
  have h := non_recursive_one_level envAB ["d", "dep"] 2 st0 "a" "a.py" mdA
    (by decide) (by decide) rfl
  rw [h]
  decide

/-- Claim C9: every fresh computation of a module that parses (whether or
not the recursive branch ran, and even when nothing is deprecated) stores
a cache entry under the module key with generator `"memestra"`, the
current format version, and as `deprecated` field exactly the returned
name list, which is sorted and duplicate-free. -/
theorem cache_write_policy (env : Env) (decorator : List String)
    (recursive : Bool) (load : St → String → LoadResult × St)
    (p key : String) (st : St) (md : ModuleData) (l : List String) (st' : St)
    (hsrc : env.source p = ParseOutcome.ok md)
    (hrun : loadFresh load env decorator recursive p key st
      = (LoadResult.found l, st')) :
    cacheGet st'.cache key = some ⟨env.version, "memestra", l⟩
    ∧ List.Sorted strLe l ∧ l.Nodup := by
  by_cases hg : (recursive = true ∧ p ∉ st.visited)
  · rw [loadFresh_eq_recursive load env decorator recursive p key st md hsrc hg]
      at hrun
    rcases hana : analyzeModule load decorator md
        {st with parseLog := p :: st.parseLog,
                 visited := setAdd st.visited p} with ⟨r, st₃⟩
    rw [hana] at hrun
    cases r with
    | cont depSub =>
        have hrun' : finishFresh env decorator md
            ((get_deprecated_users depSub md.chains md.parents).map (fun t => t.2.2))
            key st₃ = (LoadResult.found l, st') := hrun
        rw [finishFresh_eq] at hrun'
        have h1 := congrArg Prod.fst hrun'
        have h2 := congrArg Prod.snd hrun'
        simp only at h1 h2
        have hl : sortedNames
            (((get_deprecated_users depSub md.chains md.parents).map
                (fun t => t.2.2)).foldl setAdd
              (collect_deprecated decorator md.locs md.parents)) = l := by
          cases h1; rfl
        subst hl
        refine ⟨?_, sortedNames_sorted _, sortedNames_nodup _⟩
        rw [← h2]
        exact cacheGet_cons_self _ _ _
    | error =>
        have hrun' : ((LoadResult.error, st₃) : LoadResult × St)
            = (LoadResult.found l, st') := hrun
        simp at hrun'
    | fuelOut =>
        have hrun' : ((LoadResult.fuelOut, st₃) : LoadResult × St)
            = (LoadResult.found l, st') := hrun
        simp at hrun'
  · rw [loadFresh_eq_local load env decorator recursive p key st md hsrc hg,
      finishFresh_eq] at hrun
    have h1 := congrArg Prod.fst hrun
    have h2 := congrArg Prod.snd hrun
    simp only at h1 h2
    have hl : sortedNames
        (collect_deprecated decorator md.locs md.parents) = l := by
      cases h1; rfl
    subst hl
    refine ⟨?_, sortedNames_sorted _, sortedNames_nodup _⟩
    rw [← h2]
    exact cacheGet_cons_self _ _ _

/-- Claim C9 witness: a module with no deprecated symbols still gets a
cache entry, with the empty (sorted, duplicate-free) list. -/
theorem cache_write_policy_witness :
    (envEmpty.source "e.py" = ParseOutcome.ok ⟨[], fun _ => [], fun _ => [], []⟩
      ∧ loadFresh (fun s _ => (LoadResult.unresolved, s)) envEmpty ["d", "dep"]
          true "e.py" "e.py" st0
        = (LoadResult.found [],
            ⟨[("e.py", ⟨1, "memestra", []⟩)], ["e.py"], [], ["e.py"]⟩))
    ∧ cacheGet [("e.py", ⟨1, "memestra", []⟩)] "e.py"
        = some ⟨1, "memestra", []⟩ := by
  refine ⟨⟨rfl, by decide⟩, ?_⟩
  exact (cache_write_policy envEmpty ["d", "dep"] true
    (fun s _ => (LoadResult.unresolved, s)) "e.py" "e.py" st0
    ⟨[], fun _ => [], fun _ => [], []⟩ []
    ⟨[("e.py", ⟨1, "memestra", []⟩)], ["e.py"], [], ["e.py"]⟩
    rfl (by decide)).1

end Memestra

namespace Memestra

/-- A set insertion only grows the set. -/
theorem subset_setAdd {α : Type} [DecidableEq α] (l : List α) (d : α) :
    l ⊆ setAdd l d :=
  fun _ hx => mem_setAdd.mpr (Or.inl hx)

/-- The visited set only grows across `visit_Import`'s alias loop. -/
theorem visited_mono_aliases (load : St → String → LoadResult × St)
    (hl : ∀ st n, st.visited ⊆ (load st n).2.visited)
    (parents : Node → List Node) :
    ∀ (aliases : List Binding) (dep : List Node) (st : St),
      st.visited ⊆ (visitImportAliases load parents aliases dep st).2.visited := by
  intro aliases
  induction aliases with
  | nil => intro dep st; exact fun x hx => hx
  | cons a rest ih =>
      intro dep st
      have hstep : st.visited ⊆ (load st a.node.nameOf).2.visited := hl st _
      rcases hres : load st a.node.nameOf with ⟨r, st'⟩
      rw [hres] at hstep
      cases r with
      | unresolved =>
          show st.visited ⊆ ((match load st a.node.nameOf with
            | (LoadResult.unresolved, st') => visitImportAliases load parents rest dep st'
            | (LoadResult.found l, st') =>
                visitImportAliases load parents rest (markImportUsers parents l a.users dep) st'
            | (LoadResult.error, st') => (StepResult.error, st')
            | (LoadResult.fuelOut, st') => (StepResult.fuelOut, st')).2.visited)
          rw [hres]
          exact List.Subset.trans hstep (ih dep st')
      | found l =>
          show st.visited ⊆ ((match load st a.node.nameOf with
            | (LoadResult.unresolved, st') => visitImportAliases load parents rest dep st'
            | (LoadResult.found l, st') =>
                visitImportAliases load parents rest (markImportUsers parents l a.users dep) st'
            | (LoadResult.error, st') => (StepResult.error, st')
            | (LoadResult.fuelOut, st') => (StepResult.fuelOut, st')).2.visited)
          rw [hres]
          exact List.Subset.trans hstep (ih _ st')
      | error =>
          show st.visited ⊆ ((match load st a.node.nameOf with
            | (LoadResult.unresolved, st') => visitImportAliases load parents rest dep st'
            | (LoadResult.found l, st') =>
                visitImportAliases load parents rest (markImportUsers parents l a.users dep) st'
            | (LoadResult.error, st') => (StepResult.error, st')
            | (LoadResult.fuelOut, st') => (StepResult.fuelOut, st')).2.visited)
          rw [hres]
          exact hstep
      | fuelOut =>
          show st.visited ⊆ ((match load st a.node.nameOf with
            | (LoadResult.unresolved, st') => visitImportAliases load parents rest dep st'
            | (LoadResult.found l, st') =>
                visitImportAliases load parents rest (markImportUsers parents l a.users dep) st'
            | (LoadResult.error, st') => (StepResult.error, st')
            | (LoadResult.fuelOut, st') => (StepResult.fuelOut, st')).2.visited)
          rw [hres]
          exact hstep

end Memestra

namespace Memestra

/-- Step equation of the alias loop. -/
theorem visitImportAliases_cons (load : St → String → LoadResult × St)
    (parents : Node → List Node) (a : Binding) (rest : List Binding)
    (dep : List Node) (st : St) :
    visitImportAliases load parents (a :: rest) dep st =
      match load st a.node.nameOf with
      | (LoadResult.unresolved, st') => visitImportAliases load parents rest dep st'
      | (LoadResult.found l, st') =>
          visitImportAliases load parents rest (markImportUsers parents l a.users dep) st'
      | (LoadResult.error, st') => (StepResult.error, st')
      | (LoadResult.fuelOut, st') => (StepResult.fuelOut, st') := rfl

/-- Step equation of the import-statement loop for `import` statements. -/
theorem runImports_imp (load : St → String → LoadResult × St)
    (parents : Node → List Node) (aliases : List Binding)
    (rest : List ImportStmt) (dep : List Node) (st : St) :
    runImports load parents (ImportStmt.imp aliases :: rest) dep st =
      match visitImportAliases load parents aliases dep st with
      | (StepResult.cont dep', st') => runImports load parents rest dep' st'
      | (r, st') => (r, st') := rfl

/-- Step equation of the import-statement loop for `from` imports. -/
theorem runImports_impFrom (load : St → String → LoadResult × St)
    (parents : Node → List Node) (m : String) (names : List Binding)
    (rest : List ImportStmt) (dep : List Node) (st : St) :
    runImports load parents (ImportStmt.impFrom m names :: rest) dep st =
      match load st m with
      | (LoadResult.unresolved, st') => runImports load parents rest dep st'
      | (LoadResult.found l, st') =>
          runImports load parents rest (markImportFromUsers names l dep) st'
      | (LoadResult.error, st') => (StepResult.error, st')
      | (LoadResult.fuelOut, st') => (StepResult.fuelOut, st') := rfl

/-- The visited set only grows across the import-statement loop. -/
theorem visited_mono_runImports (load : St → String → LoadResult × St)
    (hl : ∀ st n, st.visited ⊆ (load st n).2.visited)
    (parents : Node → List Node) :
    ∀ (stmts : List ImportStmt) (dep : List Node) (st : St),
      st.visited ⊆ (runImports load parents stmts dep st).2.visited := by
  intro stmts
  induction stmts with
  | nil => intro dep st; exact fun x hx => hx
  | cons stmt rest ih =>
      intro dep st
      cases stmt with
      | imp aliases =>
          have hstep := visited_mono_aliases load hl parents aliases dep st
          rcases hv : visitImportAliases load parents aliases dep st with ⟨r, st'⟩
          rw [hv] at hstep
          rw [runImports_imp, hv]
          cases r with
          | cont dep' => exact List.Subset.trans hstep (ih dep' st')
          | error => exact hstep
          | fuelOut => exact hstep
      | impFrom m names =>
          have hstep : st.visited ⊆ (load st m).2.visited := hl st m
          rcases hres : load st m with ⟨r, st'⟩
          rw [hres] at hstep
          rw [runImports_impFrom, hres]
          cases r with
          | unresolved => exact List.Subset.trans hstep (ih dep st')
          | found l => exact List.Subset.trans hstep (ih _ st')
          | error => exact hstep
          | fuelOut => exact hstep

/-- The visited set only grows across one fresh module computation. -/
theorem visited_mono_loadFresh (load : St → String → LoadResult × St)
    (hl : ∀ st n, st.visited ⊆ (load st n).2.visited) (env : Env)
    (decorator : List String) (recursive : Bool) (path key : String) (st : St) :
    st.visited ⊆ (loadFresh load env decorator recursive path key st).2.visited := by
  rcases hsrc : env.source path with md | _ | _
  · by_cases hg : (recursive = true ∧ path ∉ st.visited)
    · rw [loadFresh_eq_recursive load env decorator recursive path key st md hsrc hg]
      set st₂ : St := {st with parseLog := path :: st.parseLog,
                               visited := setAdd st.visited path} with hst₂
      have hstep : st₂.visited ⊆ (analyzeModule load decorator md st₂).2.visited :=
        visited_mono_runImports load hl md.parents md.imports _ st₂
      rcases hana : analyzeModule load decorator md st₂ with ⟨r, st₃⟩
      rw [hana] at hstep
      have hin : st.visited ⊆ st₂.visited := by
        rw [hst₂]
        exact subset_setAdd _ _
      cases r with
      | cont depSub => exact List.Subset.trans hin hstep
      | error => exact List.Subset.trans hin hstep
      | fuelOut => exact List.Subset.trans hin hstep
    · rw [loadFresh_eq_local load env decorator recursive path key st md hsrc hg]
      exact fun x hx => hx
  · rw [loadFresh_eq_undecodable load env decorator recursive path key st hsrc]
    exact fun x hx => hx
  · rw [loadFresh_eq_malformed load env decorator recursive path key st hsrc]
    exact fun x hx => hx

end Memestra

namespace Memestra

/-- The visited set only grows across `load_deprecated_from_module`. -/
theorem visited_mono_load (env : Env) (decorator : List String)
    (recursive : Bool) :
    ∀ (fuel : Nat) (st : St) (n : String),
      st.visited ⊆ (load_deprecated_from_module env decorator recursive fuel st n).2.visited := by
  intro fuel
  induction fuel with
  | zero => intro st n; exact fun x hx => hx
  | succ fuel ih =>
      intro st n
      rcases hres : env.resolve n with _ | p
      · rw [load_eq_unresolved env decorator recursive fuel st n hres]
        exact fun x hx => hx
      · rcases hhit : cacheGet st.cache (env.keyOf p) with _ | e
        · rw [load_eq_miss env decorator recursive fuel st n p hres hhit]
          exact visited_mono_loadFresh _ ih env decorator recursive p (env.keyOf p) st
        · by_cases hver : e.version = env.version
          · rw [load_eq_hit env decorator recursive fuel st n p e hres hhit hver]
            exact fun x hx => hx
          · by_cases hgen : e.generator = "manual"
            · rw [load_eq_manual env decorator recursive fuel st n p e hres hhit hver hgen]
              exact fun x hx => hx
            · rw [load_eq_stale env decorator recursive fuel st n p e hres hhit hver hgen]
              exact visited_mono_loadFresh _ ih env decorator recursive p (env.keyOf p) st

/-- Filtered-out sets shrink as the visited set grows. -/
theorem unvisited_subset (P : Finset String) {v w : List String} (h : v ⊆ w) :
    P.filter (fun q => q ∉ w) ⊆ P.filter (fun q => q ∉ v) := by
  intro x hx
  rw [Finset.mem_filter] at hx ⊢
  exact ⟨hx.1, fun hv => hx.2 (h hv)⟩

/-- Shrinking of the unvisited measure under growth of the visited set. -/
theorem measure_mono (P : Finset String) {v w : List String} (h : v ⊆ w) :
    (P.filter (fun q => q ∉ w)).card ≤ (P.filter (fun q => q ∉ v)).card :=
  Finset.card_le_card (unvisited_subset P h)

/-- Strict shrinking when a fresh path from `P` enters the visited set. -/
theorem measure_lt_setAdd (P : Finset String) (visited : List String)
    (path : String) (hP : path ∈ P) (hnv : path ∉ visited) :
    (P.filter (fun q => q ∉ setAdd visited path)).card
      < (P.filter (fun q => q ∉ visited)).card := by
  apply Finset.card_lt_card
  rw [Finset.ssubset_iff_of_subset (unvisited_subset P (subset_setAdd visited path))]
  refine ⟨path, Finset.mem_filter.mpr ⟨hP, hnv⟩, ?_⟩
  intro hmem
  exact (Finset.mem_filter.mp hmem).2 (mem_setAdd.mpr (Or.inr rfl))

/-- The alias loop never runs out of fuel when the loader does not. -/
theorem aliases_no_fuelOut (load : St → String → LoadResult × St)
    (P : Finset String) (c : Nat)
    (hmono : ∀ st n, st.visited ⊆ (load st n).2.visited)
    (hload : ∀ st n, (P.filter (fun q => q ∉ st.visited)).card ≤ c →
      (load st n).1 ≠ LoadResult.fuelOut)
    (parents : Node → List Node) :
    ∀ (aliases : List Binding) (dep : List Node) (st : St),
      (P.filter (fun q => q ∉ st.visited)).card ≤ c →
      (visitImportAliases load parents aliases dep st).1 ≠ StepResult.fuelOut := by
  intro aliases
  induction aliases with
  | nil => intro dep st _ h; cases h
  | cons a rest ih =>
      intro dep st hc
      have hsub : st.visited ⊆ (load st a.node.nameOf).2.visited := hmono st _
      have hok := hload st a.node.nameOf hc
      rcases hres : load st a.node.nameOf with ⟨r, st'⟩
      rw [hres] at hsub hok
      rw [visitImportAliases_cons, hres]
      have hc' : (P.filter (fun q => q ∉ st'.visited)).card ≤ c :=
        le_trans (measure_mono P hsub) hc
      cases r with
      | unresolved => exact ih dep st' hc'
      | found l => exact ih _ st' hc'
      | error => intro h; cases h
      | fuelOut => exact absurd rfl hok

/-- The import-statement loop never runs out of fuel when the loader does
not. -/
theorem runImports_no_fuelOut (load : St → String → LoadResult × St)
    (P : Finset String) (c : Nat)
    (hmono : ∀ st n, st.visited ⊆ (load st n).2.visited)
    (hload : ∀ st n, (P.filter (fun q => q ∉ st.visited)).card ≤ c →
      (load st n).1 ≠ LoadResult.fuelOut)
    (parents : Node → List Node) :
    ∀ (stmts : List ImportStmt) (dep : List Node) (st : St),
      (P.filter (fun q => q ∉ st.visited)).card ≤ c →
      (runImports load parents stmts dep st).1 ≠ StepResult.fuelOut := by
  intro stmts
  induction stmts with
  | nil => intro dep st _ h; cases h
  | cons stmt rest ih =>
      intro dep st hc
      cases stmt with
      | imp aliases =>
          have hsub := visited_mono_aliases load hmono parents aliases dep st
          have hok := aliases_no_fuelOut load P c hmono hload parents aliases dep st hc
          rcases hv : visitImportAliases load parents aliases dep st with ⟨r, st'⟩
          rw [hv] at hsub hok
          rw [runImports_imp, hv]
          have hc' : (P.filter (fun q => q ∉ st'.visited)).card ≤ c :=
            le_trans (measure_mono P hsub) hc
          cases r with
          | cont dep' => exact ih dep' st' hc'
          | error => intro h; cases h
          | fuelOut => exact absurd rfl hok
      | impFrom m names =>
          have hsub : st.visited ⊆ (load st m).2.visited := hmono st m
          have hok := hload st m hc
          rcases hres : load st m with ⟨r, st'⟩
          rw [hres] at hsub hok
          rw [runImports_impFrom, hres]
          have hc' : (P.filter (fun q => q ∉ st'.visited)).card ≤ c :=
            le_trans (measure_mono P hsub) hc
          cases r with
          | unresolved => exact ih dep st' hc'
          | found l => exact ih _ st' hc'
          | error => intro h; cases h
          | fuelOut => exact absurd rfl hok

end Memestra

namespace Memestra

/-- One fresh module computation never runs out of fuel when the loader
is safe below the current measure. -/
theorem loadFresh_no_fuelOut (load : St → String → LoadResult × St)
    (env : Env) (decorator : List String) (recursive : Bool)
    (P : Finset String) (path key : String) (st : St)
    (hmono : ∀ st' n, st'.visited ⊆ (load st' n).2.visited)
    (hload : ∀ st' n, (P.filter (fun q => q ∉ st'.visited)).card
        < (P.filter (fun q => q ∉ st.visited)).card →
      (load st' n).1 ≠ LoadResult.fuelOut)
    (hP : path ∈ P) :
    (loadFresh load env decorator recursive path key st).1 ≠ LoadResult.fuelOut := by
  rcases hsrc : env.source path with md | _ | _
  · by_cases hg : (recursive = true ∧ path ∉ st.visited)
    · rw [loadFresh_eq_recursive load env decorator recursive path key st md hsrc hg]
      set st₂ : St := {st with parseLog := path :: st.parseLog,
                               visited := setAdd st.visited path} with hst₂
      have hlt : (P.filter (fun q => q ∉ st₂.visited)).card
          < (P.filter (fun q => q ∉ st.visited)).card := by
        rw [hst₂]
        exact measure_lt_setAdd P st.visited path hP hg.2
      have hana := runImports_no_fuelOut load P
        ((P.filter (fun q => q ∉ st₂.visited)).card) hmono
        (fun st' n hc => hload st' n (lt_of_le_of_lt hc hlt))
        md.parents md.imports (collect_deprecated decorator md.locs md.parents)
        st₂ (le_refl _)
      rcases hana' : analyzeModule load decorator md st₂ with ⟨r, st₃⟩
      rw [show runImports load md.parents md.imports
          (collect_deprecated decorator md.locs md.parents) st₂
          = ((r, st₃) : StepResult × St) from hana'] at hana
      cases r with
      | cont depSub => intro h; cases h
      | error => intro h; cases h
      | fuelOut => exact absurd rfl hana
    · rw [loadFresh_eq_local load env decorator recursive path key st md hsrc hg,
        finishFresh_eq]
      intro h; cases h
  · rw [loadFresh_eq_undecodable load env decorator recursive path key st hsrc]
    intro h; cases h
  · rw [loadFresh_eq_malformed load env decorator recursive path key st hsrc]
    intro h; cases h

/-- Claim C7: when every resolvable module path lies in the finite set
`P`, the recursive analysis terminates — a depth budget exceeding the
number of unvisited paths is never exhausted (the Python original, with
no budget, recurses only on paths absent from the shared visited set, so
its recursion depth is bounded the same way); and a module whose path is
already in the visited set is not descended into again: the back-edge
load computes the module's local deprecated names only, with an empty
imported-deprecation contribution, raising no error. -/
theorem cycle_termination (env : Env) (decorator : List String)
    (recursive : Bool) (P : Finset String)
    (hresolve : ∀ n p, env.resolve n = some p → p ∈ P) :
    (∀ fuel st n, (P.filter (fun q => q ∉ st.visited)).card < fuel →
      (load_deprecated_from_module env decorator recursive fuel st n).1
        ≠ LoadResult.fuelOut)
    ∧ (∀ fuel st n p md, env.resolve n = some p →
        cacheGet st.cache (env.keyOf p) = none →
        env.source p = ParseOutcome.ok md →
        p ∈ st.visited →
        load_deprecated_from_module env decorator recursive (fuel + 1) st n
          = (LoadResult.found (sortedNames (collect_deprecated decorator md.locs md.parents)),
             {st with parseLog := p :: st.parseLog,
                      cache := (env.keyOf p, ⟨env.version, "memestra",
                        sortedNames (collect_deprecated decorator md.locs md.parents)⟩)
                        :: st.cache})) := by
  constructor
  · intro fuel
    induction fuel with
    | zero => intro st n h; exact absurd h (Nat.not_lt_zero _)
    | succ fuel ih =>
        intro st n hmeas
        rcases hres : env.resolve n with _ | p
        · rw [load_eq_unresolved env decorator recursive fuel st n hres]
          intro h; cases h
        · rcases hhit : cacheGet st.cache (env.keyOf p) with _ | e
          · rw [load_eq_miss env decorator recursive fuel st n p hres hhit]
            exact loadFresh_no_fuelOut _ env decorator recursive P p (env.keyOf p) st
              (visited_mono_load env decorator recursive fuel)
              (fun st' n' hlt => ih st' n'
                (lt_of_lt_of_le hlt (Nat.lt_succ_iff.mp hmeas)))
              (hresolve n p hres)
          · by_cases hver : e.version = env.version
            · rw [load_eq_hit env decorator recursive fuel st n p e hres hhit hver]
              intro h; cases h
            · by_cases hgen : e.generator = "manual"
              · rw [load_eq_manual env decorator recursive fuel st n p e hres hhit
                  hver hgen]
                intro h; cases h
              · rw [load_eq_stale env decorator recursive fuel st n p e hres hhit
                  hver hgen]
                exact loadFresh_no_fuelOut _ env decorator recursive P p (env.keyOf p) st
                  (visited_mono_load env decorator recursive fuel)
                  (fun st' n' hlt => ih st' n'
                    (lt_of_lt_of_le hlt (Nat.lt_succ_iff.mp hmeas)))
                  (hresolve n p hres)
  · intro fuel st n p md hres hmiss hsrc hvis
    rw [load_eq_miss env decorator recursive fuel st n p hres hmiss]
    rw [loadFresh_eq_local _ env decorator recursive p (env.keyOf p) st md hsrc
      (fun hcon => hcon.2 hvis)]
    rw [finishFresh_eq]
    rfl

/-- Claim C7 witness: the two-module import cycle `a ↔ b` terminates
within budget 3. -/
theorem cycle_termination_witness :
    ((Finset.filter (fun q => q ∉ st0.visited) {"a.py", "b.py"}).card < 3
      ∧ (load_deprecated_from_module envCyc ["d", "dep"] true 3 st0 "a").1
          = LoadResult.found []
      ∧ (load_deprecated_from_module envCyc ["d", "dep"] true 3 st0 "a").2.visited
          = ["a.py", "b.py"])
    ∧ (load_deprecated_from_module envCyc ["d", "dep"] true 3 st0 "a").1
        ≠ LoadResult.fuelOut := by
  refine ⟨⟨by decide, by decide, by decide⟩, ?_⟩
  exact (cycle_termination envCyc ["d", "dep"] true {"a.py", "b.py"}
    (by
      intro n p h
      by_cases ha : n = "a"
      · subst ha
        have h' : envCyc.resolve "a" = some "a.py" := by decide
        rw [h'] at h
        cases h
        decide
      · by_cases hb : n = "b"
        · subst hb
          have h' : envCyc.resolve "b" = some "b.py" := by decide
          rw [h'] at h
          cases h
          decide
        · simp only [envCyc] at h
          rw [if_neg ha, if_neg hb] at h
          cases h)).1 3 st0 "a" (by decide)

end Memestra

namespace Memestra

/-- Strings with equal character data are equal. -/
theorem string_data_inj {a b : String} (h : a.data = b.data) : a = b := by
  cases a; cases b
  exact congrArg String.mk h

/-- Trichotomy for the string order. -/
theorem strLt_trichotomy (a b : String) : strLt a b ∨ a = b ∨ strLt b a := by
  rcases lt_trichotomy a.data b.data with h | h | h
  · exact Or.inl h
  · exact Or.inr (Or.inl (string_data_inj h))
  · exact Or.inr (Or.inr h)

/-- Transitivity of the string order. -/
theorem strLt_trans (a b c : String) : strLt a b → strLt b c → strLt a c :=
  fun h1 h2 => lt_trans h1 h2

/-- Totality of a lexicographic combination whose first order is
trichotomous and whose second is total. -/
theorem lexLe_total {α β : Type} {ltA : α → α → Prop} {leB : β → β → Prop}
    (htri : ∀ a b, ltA a b ∨ a = b ∨ ltA b a)
    (htot : ∀ x y, leB x y ∨ leB y x) :
    ∀ x y : α × β, lexLe ltA leB x y ∨ lexLe ltA leB y x := by
  intro x y
  rcases htri x.1 y.1 with h | h | h
  · exact Or.inl (Or.inl h)
  · rcases htot x.2 y.2 with h2 | h2
    · exact Or.inl (Or.inr ⟨h, h2⟩)
    · exact Or.inr (Or.inr ⟨h.symm, h2⟩)
  · exact Or.inr (Or.inl h)

/-- Transitivity of a lexicographic combination of transitive orders. -/
theorem lexLe_trans {α β : Type} {ltA : α → α → Prop} {leB : β → β → Prop}
    (hltt : ∀ a b c, ltA a b → ltA b c → ltA a c)
    (hBt : ∀ x y z, leB x y → leB y z → leB x z) :
    ∀ x y z : α × β, lexLe ltA leB x y → lexLe ltA leB y z → lexLe ltA leB x z := by
  rintro x y z (h1 | ⟨e1, l1⟩) (h2 | ⟨e2, l2⟩)
  · exact Or.inl (hltt _ _ _ h1 h2)
  · exact Or.inl (by rw [← e2]; exact h1)
  · exact Or.inl (by rw [e1]; exact h2)
  · exact Or.inr ⟨e1.trans e2, hBt _ _ _ l1 l2⟩

/-- Totality of the tuple order. -/
theorem tupLE_total : ∀ x y : String × String × Nat × Nat,
    tupLE x y ∨ tupLE y x := by
  intro x y
  show lexLe strLt (lexLe strLt
      (lexLe ((· < ·) : Nat → Nat → Prop) ((· ≤ ·) : Nat → Nat → Prop))) x y
    ∨ lexLe strLt (lexLe strLt
      (lexLe ((· < ·) : Nat → Nat → Prop) ((· ≤ ·) : Nat → Nat → Prop))) y x
  exact lexLe_total strLt_trichotomy
    (lexLe_total strLt_trichotomy
      (lexLe_total Nat.lt_trichotomy (fun a b => Nat.le_total a b))) x y

/-- Transitivity of the tuple order. -/
theorem tupLE_trans : ∀ x y z : String × String × Nat × Nat,
    tupLE x y → tupLE y z → tupLE x z := by
  intro x y z h1 h2
  have h1' : lexLe strLt (lexLe strLt
      (lexLe ((· < ·) : Nat → Nat → Prop) ((· ≤ ·) : Nat → Nat → Prop))) x y := h1
  have h2' : lexLe strLt (lexLe strLt
      (lexLe ((· < ·) : Nat → Nat → Prop) ((· ≤ ·) : Nat → Nat → Prop))) y z := h2
  show lexLe strLt (lexLe strLt
      (lexLe ((· < ·) : Nat → Nat → Prop) ((· ≤ ·) : Nat → Nat → Prop))) x z
  exact lexLe_trans strLt_trans
    (lexLe_trans strLt_trans
      (lexLe_trans (fun (a b c : Nat) (ha : a < b) (hb : b < c) => lt_trans ha hb)
        (fun (a b c : Nat) (ha : a ≤ b) (hb : b ≤ c) => le_trans ha hb)))
    x y z h1' h2' 

/-- Claim C10: a successful `memestra` run returns a finite list sorted
by the natural lexicographic tuple order, and — up to that reordering —
it holds exactly one `(display_name, source_file, line, column)` tuple
per triple the use-site propagator emitted on the module's final
deprecated set. -/
theorem output_shape (env : Env) (decorator : List String) (md : ModuleData)
    (fname : String) (recursive : Bool) (fuel : Nat)
    (cache₀ : List (String × CacheEntry))
    (out : List (String × String × Nat × Nat)) (st' : St)
    (h : memestra env decorator md fname recursive fuel cache₀
      = (RunResult.ok out, st')) :
    List.Sorted tupLE out
    ∧ ∃ dep : List Node,
        analyzeModule (load_deprecated_from_module env decorator recursive fuel)
          decorator md ⟨cache₀, [], [], []⟩ = (StepResult.cont dep, st')
        ∧ out.Perm ((get_deprecated_users dep md.chains md.parents).map
            (fun t => (prettyname t.1, fname, t.2.1.lineOf, t.2.1.colOf))) := by
  rcases hana : analyzeModule
      (load_deprecated_from_module env decorator recursive fuel)
      decorator md ⟨cache₀, [], [], []⟩ with ⟨r, stA⟩
  have h' : (match ((r, stA) : StepResult × St) with
    | (StepResult.cont dep, st) =>
        (RunResult.ok (List.insertionSort tupLE
          ((get_deprecated_users dep md.chains md.parents).map (fun t =>
            (prettyname t.1, fname, t.2.1.lineOf, t.2.1.colOf)))), st)
    | (StepResult.error, st) => (RunResult.error, st)
    | (StepResult.fuelOut, st) => (RunResult.fuelOut, st))
      = (RunResult.ok out, st') := by
    rw [← hana]
    exact h
  cases r with
  | cont dep =>
      have h1 := congrArg Prod.fst h'
      have h2 := congrArg Prod.snd h'
      simp only at h1 h2
      have hout : List.insertionSort tupLE
          ((get_deprecated_users dep md.chains md.parents).map (fun t =>
            (prettyname t.1, fname, t.2.1.lineOf, t.2.1.colOf))) = out := by
        cases h1; rfl
      subst hout
      subst h2
      exact ⟨@List.sorted_insertionSort _ tupLE _ ⟨tupLE_total⟩ ⟨tupLE_trans⟩ _,
        dep, rfl, List.perm_insertionSort tupLE _⟩
  | error => simp at h'
  | fuelOut => simp at h'

/-- Claim C10 witness: module B's scan output is the sorted singleton. -/
theorem output_shape_witness :
    memestra envAB ["d", "dep"] mdB "b.py" false 3 []
      = (RunResult.ok [("f", "b.py", 3, 0)],
         ⟨[("a.py", ⟨1, "memestra", ["f"]⟩)], [], [], ["a.py"]⟩)
    ∧ List.Sorted tupLE [("f", "b.py", 3, 0)] := by
  constructor
  · decide
  · exact (output_shape envAB ["d", "dep"] mdB "b.py" false 3 []
      [("f", "b.py", 3, 0)]
      ⟨[("a.py", ⟨1, "memestra", ["f"]⟩)], [], [], ["a.py"]⟩ (by decide)).1

end Memestra

namespace Memestra


/-- Reflexivity of entry preservation. -/
theorem cacheLeq_refl (c : List (String × CacheEntry)) : cacheLeq c c :=
  fun _ _ h => h

/-- Transitivity of entry preservation. -/
theorem cacheLeq_trans {a b c : List (String × CacheEntry)}
    (h1 : cacheLeq a b) (h2 : cacheLeq b c) : cacheLeq a c :=
  fun k v h => h2 k v (h1 k v h)

/-- Reading the cache past a write of a different key. -/
theorem cacheGet_cons_ne (c : List (String × CacheEntry)) (k k' : String)
    (e : CacheEntry) (h : k' ≠ k) :
    cacheGet ((k, e) :: c) k' = cacheGet c k' := by
  unfold cacheGet
  rw [List.find?_cons_of_neg]
  simp [h.symm]

/-- The empty cache satisfies the invariant. -/
theorem cacheInv_nil (env : Env) : cacheInv env [] :=
  ⟨(fun _ _ h => by cases h), (fun _ _ => rfl)⟩

/-- Writing a current-version entry for the key of a parsed path
preserves the invariant and every other entry. -/
theorem cacheInv_write (env : Env) (hinj : Function.Injective env.keyOf)
    (c : List (String × CacheEntry)) (path : String) (md : ModuleData)
    (hsrc : env.source path = ParseOutcome.ok md) (dl : List String)
    (hc : cacheInv env c) :
    cacheInv env ((env.keyOf path, ⟨env.version, "memestra", dl⟩) :: c) := by
  constructor
  · intro k v hget
    by_cases hk : k = env.keyOf path
    · subst hk
      rw [cacheGet_cons_self] at hget
      cases hget
      rfl
    · rw [cacheGet_cons_ne _ _ _ _ hk] at hget
      exact hc.1 k v hget
  · intro q hq
    have hne : q ≠ path := by
      intro hqp
      subst hqp
      rcases hq with hq | hq <;> rw [hq] at hsrc <;> cases hsrc
    rw [cacheGet_cons_ne _ _ _ _ (fun hkeys => hne (hinj hkeys))]
    exact hc.2 q hq

/-- A write onto a key absent from `c` preserves every entry of `c`. -/
theorem cacheLeq_write (c c' : List (String × CacheEntry)) (key : String)
    (e : CacheEntry) (hmiss : cacheGet c key = none) (hle : cacheLeq c c') :
    cacheLeq c ((key, e) :: c') := by
  intro k v hget
  have hk : k ≠ key := by
    intro hkk
    subst hkk
    rw [hmiss] at hget
    cases hget
  rw [cacheGet_cons_ne _ _ _ _ hk]
  exact hle k v hget

end Memestra

namespace Memestra


/-- The alias loop preserves cache entries and the invariant. -/
theorem aliases_preserve (env : Env) (load : St → String → LoadResult × St)
    (hl : preservesCache env load) (parents : Node → List Node) :
    ∀ (aliases : List Binding) (dep : List Node) (st : St),
      cacheInv env st.cache →
      cacheLeq st.cache (visitImportAliases load parents aliases dep st).2.cache
      ∧ cacheInv env (visitImportAliases load parents aliases dep st).2.cache := by
  intro aliases
  induction aliases with
  | nil => intro dep st hc; exact ⟨cacheLeq_refl _, hc⟩
  | cons a rest ih =>
      intro dep st hc
      have hstep := hl st a.node.nameOf hc
      rcases hres : load st a.node.nameOf with ⟨r, st'⟩
      rw [hres] at hstep
      rw [visitImportAliases_cons, hres]
      cases r with
      | unresolved =>
          have hrest := ih dep st' hstep.2
          exact ⟨cacheLeq_trans hstep.1 hrest.1, hrest.2⟩
      | found l =>
          have hrest := ih (markImportUsers parents l a.users dep) st' hstep.2
          exact ⟨cacheLeq_trans hstep.1 hrest.1, hrest.2⟩
      | error => exact hstep
      | fuelOut => exact hstep

/-- The import-statement loop preserves cache entries and the invariant. -/
theorem runImports_preserve (env : Env) (load : St → String → LoadResult × St)
    (hl : preservesCache env load) (parents : Node → List Node) :
    ∀ (stmts : List ImportStmt) (dep : List Node) (st : St),
      cacheInv env st.cache →
      cacheLeq st.cache (runImports load parents stmts dep st).2.cache
      ∧ cacheInv env (runImports load parents stmts dep st).2.cache := by
  intro stmts
  induction stmts with
  | nil => intro dep st hc; exact ⟨cacheLeq_refl _, hc⟩
  | cons stmt rest ih =>
      intro dep st hc
      cases stmt with
      | imp aliases =>
          have hstep := aliases_preserve env load hl parents aliases dep st hc
          rcases hv : visitImportAliases load parents aliases dep st with ⟨r, st'⟩
          rw [hv] at hstep
          rw [runImports_imp, hv]
          cases r with
          | cont dep' =>
              have hrest := ih dep' st' hstep.2
              exact ⟨cacheLeq_trans hstep.1 hrest.1, hrest.2⟩
          | error => exact hstep
          | fuelOut => exact hstep
      | impFrom m names =>
          have hstep := hl st m hc
          rcases hres : load st m with ⟨r, st'⟩
          rw [hres] at hstep
          rw [runImports_impFrom, hres]
          cases r with
          | unresolved =>
              have hrest := ih dep st' hstep.2
              exact ⟨cacheLeq_trans hstep.1 hrest.1, hrest.2⟩
          | found l =>
              have hrest := ih (markImportFromUsers names l dep) st' hstep.2
              exact ⟨cacheLeq_trans hstep.1 hrest.1, hrest.2⟩
          | error => exact hstep
          | fuelOut => exact hstep

/-- One fresh computation, entered on a cache miss for the path's key,
preserves older cache entries and the invariant. -/
theorem loadFresh_preserve (env : Env) (load : St → String → LoadResult × St)
    (hl : preservesCache env load) (hinj : Function.Injective env.keyOf)
    (decorator : List String) (recursive : Bool) (path : String) (st : St)
    (hmiss : cacheGet st.cache (env.keyOf path) = none)
    (hc : cacheInv env st.cache) :
    cacheLeq st.cache
      (loadFresh load env decorator recursive path (env.keyOf path) st).2.cache
    ∧ cacheInv env
      (loadFresh load env decorator recursive path (env.keyOf path) st).2.cache := by
  rcases hsrc : env.source path with md | _ | _
  · by_cases hg : (recursive = true ∧ path ∉ st.visited)
    · rw [loadFresh_eq_recursive load env decorator recursive path (env.keyOf path)
        st md hsrc hg]
      set st₂ : St := {st with parseLog := path :: st.parseLog,
                               visited := setAdd st.visited path} with hst₂
      have hstep := runImports_preserve env load hl md.parents md.imports
        (collect_deprecated decorator md.locs md.parents) st₂ hc
      rcases hana : analyzeModule load decorator md st₂ with ⟨r, st₃⟩
      have hstep' : cacheLeq st.cache st₃.cache ∧ cacheInv env st₃.cache := by
        have h3 : (runImports load md.parents md.imports
            (collect_deprecated decorator md.locs md.parents) st₂)
            = ((r, st₃) : StepResult × St) := hana
        rw [h3] at hstep
        exact hstep
      cases r with
      | cont depSub =>
          show cacheLeq st.cache
              (finishFresh env decorator md
                ((get_deprecated_users depSub md.chains md.parents).map (fun t => t.2.2))
                (env.keyOf path) st₃).2.cache
            ∧ cacheInv env
              (finishFresh env decorator md
                ((get_deprecated_users depSub md.chains md.parents).map (fun t => t.2.2))
                (env.keyOf path) st₃).2.cache
          rw [finishFresh_eq]
          constructor
          · exact cacheLeq_write _ _ _ _ hmiss hstep'.1
          · exact cacheInv_write env hinj st₃.cache path md hsrc _ hstep'.2
      | error => exact hstep'
      | fuelOut => exact hstep'
    · rw [loadFresh_eq_local load env decorator recursive path (env.keyOf path)
        st md hsrc hg, finishFresh_eq]
      constructor
      · exact cacheLeq_write _ _ _ _ hmiss (cacheLeq_refl _)
      · exact cacheInv_write env hinj st.cache path md hsrc _ hc
  · rw [loadFresh_eq_undecodable load env decorator recursive path (env.keyOf path)
      st hsrc]
    exact ⟨cacheLeq_refl _, hc⟩
  · rw [loadFresh_eq_malformed load env decorator recursive path (env.keyOf path)
      st hsrc]
    exact ⟨cacheLeq_refl _, hc⟩

/-- `load_deprecated_from_module` preserves cache entries and the
invariant at every depth budget. -/
theorem load_preserve (env : Env) (decorator : List String) (recursive : Bool)
    (hinj : Function.Injective env.keyOf) :
    ∀ fuel, preservesCache env
      (fun s m => load_deprecated_from_module env decorator recursive fuel s m) := by
  intro fuel
  induction fuel with
  | zero => intro st n hc; exact ⟨cacheLeq_refl _, hc⟩
  | succ fuel ih =>
      intro st n hc
      show cacheLeq st.cache
          (load_deprecated_from_module env decorator recursive (fuel + 1) st n).2.cache
        ∧ cacheInv env
          (load_deprecated_from_module env decorator recursive (fuel + 1) st n).2.cache
      rcases hres : env.resolve n with _ | p
      · rw [load_eq_unresolved env decorator recursive fuel st n hres]
        exact ⟨cacheLeq_refl _, hc⟩
      · rcases hhit : cacheGet st.cache (env.keyOf p) with _ | e
        · rw [load_eq_miss env decorator recursive fuel st n p hres hhit]
          exact loadFresh_preserve env _ ih hinj decorator recursive p st hhit hc
        · have hver : e.version = env.version := hc.1 _ e hhit
          rw [load_eq_hit env decorator recursive fuel st n p e hres hhit hver]
          exact ⟨cacheLeq_refl _, hc⟩

end Memestra

namespace Memestra

/-- Mirror lemma: after a first-run load finished in state `st'`, any
later load of the same module name from a state whose cache preserves
`st'`'s entries (and satisfies the invariant) returns the very same
result, changes neither cache nor visited set, and re-reads only
undecodable files. -/
theorem load_mirror (env : Env) (decorator : List String) (recursive : Bool)
    (fuel : Nat) (st : St) (n : String)
    (r : LoadResult) (st' : St)
    (hc : cacheInv env st.cache)
    (hrun : load_deprecated_from_module env decorator recursive fuel st n = (r, st'))
    (hne : r ≠ LoadResult.error) (hnf : r ≠ LoadResult.fuelOut)
    (st₂ : St) (hc₂ : cacheInv env st₂.cache)
    (hle : cacheLeq st'.cache st₂.cache) (fuel₂ : Nat) :
    ∃ st₂', load_deprecated_from_module env decorator recursive (fuel₂ + 1) st₂ n
        = (r, st₂')
      ∧ st₂'.cache = st₂.cache ∧ st₂'.visited = st₂.visited
      ∧ ∀ q, q ∈ st₂'.parseLog →
          q ∈ st₂.parseLog ∨ env.source q = ParseOutcome.undecodable := by
  cases fuel with
  | zero =>
      have h0 : ((LoadResult.fuelOut, st) : LoadResult × St) = (r, st') := hrun
      cases h0
      exact absurd rfl hnf
  | succ fuel =>
      rcases hres : env.resolve n with _ | p
      · rw [load_eq_unresolved env decorator recursive fuel st n hres] at hrun
        cases hrun
        rw [load_eq_unresolved env decorator recursive fuel₂ st₂ n hres]
        exact ⟨st₂, rfl, rfl, rfl, fun q hq => Or.inl hq⟩
      · rcases hhit : cacheGet st.cache (env.keyOf p) with _ | e
        · rw [load_eq_miss env decorator recursive fuel st n p hres hhit] at hrun
          rcases hsrc : env.source p with md | _ | _
          · have hfound : ∃ l, r = LoadResult.found l
                ∧ cacheGet st'.cache (env.keyOf p)
                    = some ⟨env.version, "memestra", l⟩ := by
              by_cases hg : (recursive = true ∧ p ∉ st.visited)
              · rw [loadFresh_eq_recursive _ env decorator recursive p (env.keyOf p)
                  st md hsrc hg] at hrun
                rcases hana : analyzeModule
                    (fun s m => load_deprecated_from_module env decorator recursive fuel s m)
                    decorator md
                    {st with parseLog := p :: st.parseLog,
                             visited := setAdd st.visited p} with ⟨ra, st₃⟩
                rw [hana] at hrun
                cases ra with
                | cont depSub =>
                    have hrun' : finishFresh env decorator md
                        ((get_deprecated_users depSub md.chains md.parents).map
                          (fun t => t.2.2))
                        (env.keyOf p) st₃ = (r, st') := hrun
                    rw [finishFresh_eq] at hrun'
                    cases hrun'
                    exact ⟨_, rfl, cacheGet_cons_self _ _ _⟩
                | error =>
                    have hrun' : ((LoadResult.error, st₃) : LoadResult × St)
                        = (r, st') := hrun
                    cases hrun'
                    exact absurd rfl hne
                | fuelOut =>
                    have hrun' : ((LoadResult.fuelOut, st₃) : LoadResult × St)
                        = (r, st') := hrun
                    cases hrun'
                    exact absurd rfl hnf
              · rw [loadFresh_eq_local _ env decorator recursive p (env.keyOf p)
                  st md hsrc hg, finishFresh_eq] at hrun
                cases hrun
                exact ⟨_, rfl, cacheGet_cons_self _ _ _⟩
            obtain ⟨l, rfl, hkey1⟩ := hfound
            have hkey₂ : cacheGet st₂.cache (env.keyOf p)
                = some ⟨env.version, "memestra", l⟩ := hle _ _ hkey1
            rw [load_eq_hit env decorator recursive fuel₂ st₂ n p
              ⟨env.version, "memestra", l⟩ hres hkey₂ rfl]
            exact ⟨st₂, rfl, rfl, rfl, fun q hq => Or.inl hq⟩
          · rw [loadFresh_eq_undecodable _ env decorator recursive p (env.keyOf p)
              st hsrc] at hrun
            cases hrun
            have hmiss₂ : cacheGet st₂.cache (env.keyOf p) = none :=
              hc₂.2 p (Or.inl hsrc)
            rw [load_eq_miss env decorator recursive fuel₂ st₂ n p hres hmiss₂,
              loadFresh_eq_undecodable _ env decorator recursive p (env.keyOf p)
                st₂ hsrc]
            refine ⟨{st₂ with parseLog := p :: st₂.parseLog}, rfl, rfl, rfl, ?_⟩
            intro q hq
            rcases List.mem_cons.mp hq with rfl | hq'
            · exact Or.inr hsrc
            · exact Or.inl hq'
          · rw [loadFresh_eq_malformed _ env decorator recursive p (env.keyOf p)
              st hsrc] at hrun
            cases hrun
            exact absurd rfl hne
        · have hver : e.version = env.version := hc.1 _ e hhit
          rw [load_eq_hit env decorator recursive fuel st n p e hres hhit hver] at hrun
          cases hrun
          have hkey₂ : cacheGet st₂.cache (env.keyOf p) = some e := hle _ _ hhit
          rw [load_eq_hit env decorator recursive fuel₂ st₂ n p e hres hkey₂ hver]
          exact ⟨st₂, rfl, rfl, rfl, fun q hq => Or.inl hq⟩

end Memestra

namespace Memestra

/-- Mirror lemma for the alias loop: replayed against a warm cache state
preserving the first run's final entries, it reconstructs the same
deprecated set with no cache or visited-set change. -/
theorem aliases_mirror (env : Env) (decorator : List String) (recursive : Bool)
    (hinj : Function.Injective env.keyOf) (fuel fuel₂ : Nat)
    (parents : Node → List Node) :
    ∀ (aliases : List Binding) (dep depF : List Node) (st stF : St),
      cacheInv env st.cache →
      visitImportAliases
        (fun s m => load_deprecated_from_module env decorator recursive fuel s m)
        parents aliases dep st = (StepResult.cont depF, stF) →
      ∀ st₂, cacheInv env st₂.cache → cacheLeq stF.cache st₂.cache →
      ∃ st₂', visitImportAliases
          (fun s m => load_deprecated_from_module env decorator recursive (fuel₂ + 1) s m)
          parents aliases dep st₂ = (StepResult.cont depF, st₂')
        ∧ st₂'.cache = st₂.cache ∧ st₂'.visited = st₂.visited
        ∧ ∀ q, q ∈ st₂'.parseLog →
            q ∈ st₂.parseLog ∨ env.source q = ParseOutcome.undecodable := by
  intro aliases
  induction aliases with
  | nil =>
      intro dep depF st stF hc hrun st₂ hc₂ hle
      have h0 : ((StepResult.cont dep, st) : StepResult × St)
          = (StepResult.cont depF, stF) := hrun
      cases h0
      exact ⟨st₂, rfl, rfl, rfl, fun q hq => Or.inl hq⟩
  | cons a rest ih =>
      intro dep depF st stF hc hrun st₂ hc₂ hle
      rw [visitImportAliases_cons] at hrun
      rcases hres : load_deprecated_from_module env decorator recursive fuel st
          a.node.nameOf with ⟨r, stm⟩
      rw [hres] at hrun
      have hinvm : cacheInv env stm.cache := by
        have h : cacheInv env
            (load_deprecated_from_module env decorator recursive fuel st
              a.node.nameOf).2.cache :=
          (load_preserve env decorator recursive hinj fuel st a.node.nameOf hc).2
        rw [hres] at h
        exact h
      have hleqm : cacheLeq st.cache stm.cache := by
        have h : cacheLeq st.cache
            (load_deprecated_from_module env decorator recursive fuel st
              a.node.nameOf).2.cache :=
          (load_preserve env decorator recursive hinj fuel st a.node.nameOf hc).1
        rw [hres] at h
        exact h
      cases r with
      | unresolved =>
          have hrun' : visitImportAliases
              (fun s m => load_deprecated_from_module env decorator recursive fuel s m)
              parents rest dep stm = (StepResult.cont depF, stF) := hrun
          have hleF : cacheLeq stm.cache stF.cache := by
            have h := (aliases_preserve env _
              (load_preserve env decorator recursive hinj fuel) parents rest dep
              stm hinvm).1
            rw [hrun'] at h
            exact h
          obtain ⟨st₂', hstep2, hcache, hvis, hlog⟩ :=
            load_mirror env decorator recursive fuel st a.node.nameOf
              LoadResult.unresolved stm hc hres (by intro h; cases h)
              (by intro h; cases h) st₂ hc₂ (cacheLeq_trans hleF hle) fuel₂
          obtain ⟨st₂'', htail, hcache', hvis', hlog'⟩ :=
            ih dep depF stm stF hinvm hrun' st₂'
              (by rw [hcache]; exact hc₂) (by rw [hcache]; exact hle)
          refine ⟨st₂'', ?_, by rw [hcache', hcache], by rw [hvis', hvis], ?_⟩
          · rw [visitImportAliases_cons, hstep2]
            exact htail
          · intro q hq
            rcases hlog' q hq with hq' | hq'
            · exact hlog q hq'
            · exact Or.inr hq'
      | found l =>
          have hrun' : visitImportAliases
              (fun s m => load_deprecated_from_module env decorator recursive fuel s m)
              parents rest (markImportUsers parents l a.users dep) stm
              = (StepResult.cont depF, stF) := hrun
          have hleF : cacheLeq stm.cache stF.cache := by
            have h := (aliases_preserve env _
              (load_preserve env decorator recursive hinj fuel) parents rest
              (markImportUsers parents l a.users dep) stm hinvm).1
            rw [hrun'] at h
            exact h
          obtain ⟨st₂', hstep2, hcache, hvis, hlog⟩ :=
            load_mirror env decorator recursive fuel st a.node.nameOf
              (LoadResult.found l) stm hc hres (by intro h; cases h)
              (by intro h; cases h) st₂ hc₂ (cacheLeq_trans hleF hle) fuel₂
          obtain ⟨st₂'', htail, hcache', hvis', hlog'⟩ :=
            ih (markImportUsers parents l a.users dep) depF stm stF hinvm hrun' st₂'
              (by rw [hcache]; exact hc₂) (by rw [hcache]; exact hle)
          refine ⟨st₂'', ?_, by rw [hcache', hcache], by rw [hvis', hvis], ?_⟩
          · rw [visitImportAliases_cons, hstep2]
            exact htail
          · intro q hq
            rcases hlog' q hq with hq' | hq'
            · exact hlog q hq'
            · exact Or.inr hq'
      | error =>
          have hrun' : ((StepResult.error, stm) : StepResult × St)
              = (StepResult.cont depF, stF) := hrun
          simp at hrun'
      | fuelOut =>
          have hrun' : ((StepResult.fuelOut, stm) : StepResult × St)
              = (StepResult.cont depF, stF) := hrun
          simp at hrun'

end Memestra

namespace Memestra

/-- Mirror lemma for the import-statement loop: replayed against a warm
cache preserving the first run's final entries, it reconstructs the same
deprecated set, leaves cache and visited set untouched, and re-reads only
undecodable files. -/
theorem runImports_mirror (env : Env) (decorator : List String) (recursive : Bool)
    (hinj : Function.Injective env.keyOf) (fuel fuel₂ : Nat)
    (parents : Node → List Node) :
    ∀ (stmts : List ImportStmt) (dep depF : List Node) (st stF : St),
      cacheInv env st.cache →
      runImports
        (fun s m => load_deprecated_from_module env decorator recursive fuel s m)
        parents stmts dep st = (StepResult.cont depF, stF) →
      ∀ st₂, cacheInv env st₂.cache → cacheLeq stF.cache st₂.cache →
      ∃ st₂', runImports
          (fun s m => load_deprecated_from_module env decorator recursive (fuel₂ + 1) s m)
          parents stmts dep st₂ = (StepResult.cont depF, st₂')
        ∧ st₂'.cache = st₂.cache ∧ st₂'.visited = st₂.visited
        ∧ ∀ q, q ∈ st₂'.parseLog →
            q ∈ st₂.parseLog ∨ env.source q = ParseOutcome.undecodable := by
  intro stmts
  induction stmts with
  | nil =>
      intro dep depF st stF hc hrun st₂ hc₂ hle
      have h0 : ((StepResult.cont dep, st) : StepResult × St)
          = (StepResult.cont depF, stF) := hrun
      cases h0
      exact ⟨st₂, rfl, rfl, rfl, fun q hq => Or.inl hq⟩
  | cons stmt rest ih =>
      intro dep depF st stF hc hrun st₂ hc₂ hle
      cases stmt with
      | imp aliases =>
          rw [runImports_imp] at hrun
          rcases hv : visitImportAliases
              (fun s m => load_deprecated_from_module env decorator recursive fuel s m)
              parents aliases dep st with ⟨ra, stm⟩
          rw [hv] at hrun
          have hinvm : cacheInv env stm.cache := by
            have h : cacheInv env (visitImportAliases
                (fun s m => load_deprecated_from_module env decorator recursive fuel s m)
                parents aliases dep st).2.cache :=
              (aliases_preserve env _
                (load_preserve env decorator recursive hinj fuel) parents aliases
                dep st hc).2
            rw [hv] at h
            exact h
          cases ra with
          | cont dep' =>
              have hrun' : runImports
                  (fun s m => load_deprecated_from_module env decorator recursive fuel s m)
                  parents rest dep' stm = (StepResult.cont depF, stF) := hrun
              have hleF : cacheLeq stm.cache stF.cache := by
                have h : cacheLeq stm.cache (runImports
                    (fun s m => load_deprecated_from_module env decorator recursive fuel s m)
                    parents rest dep' stm).2.cache :=
                  (runImports_preserve env _
                    (load_preserve env decorator recursive hinj fuel) parents rest
                    dep' stm hinvm).1
                rw [hrun'] at h
                exact h
              obtain ⟨st₂', hblock2, hcache, hvis, hlog⟩ :=
                aliases_mirror env decorator recursive hinj fuel fuel₂ parents
                  aliases dep dep' st stm hc hv st₂ hc₂ (cacheLeq_trans hleF hle)
              obtain ⟨st₂'', htail, hcache', hvis', hlog'⟩ :=
                ih dep' depF stm stF hinvm hrun' st₂'
                  (by rw [hcache]; exact hc₂) (by rw [hcache]; exact hle)
              refine ⟨st₂'', ?_, by rw [hcache', hcache], by rw [hvis', hvis], ?_⟩
              · rw [runImports_imp, hblock2]
                exact htail
              · intro q hq
                rcases hlog' q hq with hq' | hq'
                · exact hlog q hq'
                · exact Or.inr hq'
          | error =>
              have hrun' : ((StepResult.error, stm) : StepResult × St)
                  = (StepResult.cont depF, stF) := hrun
              simp at hrun'
          | fuelOut =>
              have hrun' : ((StepResult.fuelOut, stm) : StepResult × St)
                  = (StepResult.cont depF, stF) := hrun
              simp at hrun'
      | impFrom m names =>
          rw [runImports_impFrom] at hrun
          rcases hres : load_deprecated_from_module env decorator recursive fuel st m
            with ⟨r, stm⟩
          rw [hres] at hrun
          have hinvm : cacheInv env stm.cache := by
            have h : cacheInv env
                (load_deprecated_from_module env decorator recursive fuel st m).2.cache :=
              (load_preserve env decorator recursive hinj fuel st m hc).2
            rw [hres] at h
            exact h
          cases r with
          | unresolved =>
              have hrun' : runImports
                  (fun s m => load_deprecated_from_module env decorator recursive fuel s m)
                  parents rest dep stm = (StepResult.cont depF, stF) := hrun
              have hleF : cacheLeq stm.cache stF.cache := by
                have h : cacheLeq stm.cache (runImports
                    (fun s m => load_deprecated_from_module env decorator recursive fuel s m)
                    parents rest dep stm).2.cache :=
                  (runImports_preserve env _
                    (load_preserve env decorator recursive hinj fuel) parents rest
                    dep stm hinvm).1
                rw [hrun'] at h
                exact h
              obtain ⟨st₂', hstep2, hcache, hvis, hlog⟩ :=
                load_mirror env decorator recursive fuel st m
                  LoadResult.unresolved stm hc hres (by intro h; cases h)
                  (by intro h; cases h) st₂ hc₂ (cacheLeq_trans hleF hle) fuel₂
              obtain ⟨st₂'', htail, hcache', hvis', hlog'⟩ :=
                ih dep depF stm stF hinvm hrun' st₂'
                  (by rw [hcache]; exact hc₂) (by rw [hcache]; exact hle)
              refine ⟨st₂'', ?_, by rw [hcache', hcache], by rw [hvis', hvis], ?_⟩
              · rw [runImports_impFrom, hstep2]
                exact htail
              · intro q hq
                rcases hlog' q hq with hq' | hq'
                · exact hlog q hq'
                · exact Or.inr hq'
          | found l =>
              have hrun' : runImports
                  (fun s m => load_deprecated_from_module env decorator recursive fuel s m)
                  parents rest (markImportFromUsers names l dep) stm
                  = (StepResult.cont depF, stF) := hrun
              have hleF : cacheLeq stm.cache stF.cache := by
                have h : cacheLeq stm.cache (runImports
                    (fun s m => load_deprecated_from_module env decorator recursive fuel s m)
                    parents rest (markImportFromUsers names l dep) stm).2.cache :=
                  (runImports_preserve env _
                    (load_preserve env decorator recursive hinj fuel) parents rest
                    (markImportFromUsers names l dep) stm hinvm).1
                rw [hrun'] at h
                exact h
              obtain ⟨st₂', hstep2, hcache, hvis, hlog⟩ :=
                load_mirror env decorator recursive fuel st m
                  (LoadResult.found l) stm hc hres (by intro h; cases h)
                  (by intro h; cases h) st₂ hc₂ (cacheLeq_trans hleF hle) fuel₂
              obtain ⟨st₂'', htail, hcache', hvis', hlog'⟩ :=
                ih (markImportFromUsers names l dep) depF stm stF hinvm hrun' st₂'
                  (by rw [hcache]; exact hc₂) (by rw [hcache]; exact hle)
              refine ⟨st₂'', ?_, by rw [hcache', hcache], by rw [hvis', hvis], ?_⟩
              · rw [runImports_impFrom, hstep2]
                exact htail
              · intro q hq
                rcases hlog' q hq with hq' | hq'
                · exact hlog q hq'
                · exact Or.inr hq'
          | error =>
              have hrun' : ((StepResult.error, stm) : StepResult × St)
                  = (StepResult.cont depF, stF) := hrun
              simp at hrun'
          | fuelOut =>
              have hrun' : ((StepResult.fuelOut, stm) : StepResult × St)
                  = (StepResult.cont depF, stF) := hrun
              simp at hrun'

end Memestra

namespace Memestra

/-- Claim C8 counterexample: with a warm cache the second run yields the
identical output, but it is not true that it performs no recomputation —
the undecodable module `u` is re-opened and re-read (its empty
contribution is never cached), as the second run's non-empty parse log
shows; the top-level module is likewise fully re-analyzed. -/
theorem warm_cache_recompute_counterexample :
    (memestra envU ["d", "dep"] mdTopU "t.py" false 3 []).1
      = (memestra envU ["d", "dep"] mdTopU "t.py" false 3
          (memestra envU ["d", "dep"] mdTopU "t.py" false 3 []).2.cache).1
    ∧ (memestra envU ["d", "dep"] mdTopU "t.py" false 3
        (memestra envU ["d", "dep"] mdTopU "t.py" false 3 []).2.cache).2.parseLog
      = ["u.py"] := by
  decide

/-- Claim C8 (amended): re-running the analysis of an unchanged module
with the cache warmed by a first successful run yields the identical
output list and writes nothing new to the cache; every imported module
the first run parsed successfully is satisfied by a cache hit, and the
only files the second run re-reads are undecodable ones (whose empty
contribution is never cached); the top-level module itself is re-analyzed
by every run. -/
theorem warm_cache_idempotence (env : Env) (decorator : List String)
    (md : ModuleData) (fname : String) (recursive : Bool) (fuel fuel₂ : Nat)
    (hinj : Function.Injective env.keyOf)
    (out : List (String × String × Nat × Nat)) (st₁ : St)
    (h1 : memestra env decorator md fname recursive fuel []
        = (RunResult.ok out, st₁)) :
    ∃ st₂, memestra env decorator md fname recursive (fuel₂ + 1) st₁.cache
        = (RunResult.ok out, st₂)
      ∧ st₂.cache = st₁.cache
      ∧ ∀ q, q ∈ st₂.parseLog → env.source q = ParseOutcome.undecodable := by
  rcases hana : analyzeModule
      (load_deprecated_from_module env decorator recursive fuel)
      decorator md ⟨[], [], [], []⟩ with ⟨r, stA⟩
  have h1' : (match ((r, stA) : StepResult × St) with
    | (StepResult.cont dep, st) =>
        (RunResult.ok (List.insertionSort tupLE
          ((get_deprecated_users dep md.chains md.parents).map (fun t =>
            (prettyname t.1, fname, t.2.1.lineOf, t.2.1.colOf)))), st)
    | (StepResult.error, st) => (RunResult.error, st)
    | (StepResult.fuelOut, st) => (RunResult.fuelOut, st))
      = (RunResult.ok out, st₁) := by
    rw [← hana]
    exact h1
  cases r with
  | error => simp at h1'
  | fuelOut => simp at h1'
  | cont dep =>
      have h1f := congrArg Prod.fst h1'
      have h1s := congrArg Prod.snd h1'
      simp only at h1f h1s
      have hout : List.insertionSort tupLE
          ((get_deprecated_users dep md.chains md.parents).map (fun t =>
            (prettyname t.1, fname, t.2.1.lineOf, t.2.1.colOf))) = out := by
        cases h1f
        rfl
      subst h1s
      have hinv1 : cacheInv env stA.cache := by
        have h2 : cacheInv env (analyzeModule
            (load_deprecated_from_module env decorator recursive fuel)
            decorator md ⟨[], [], [], []⟩).2.cache :=
          (runImports_preserve env _
            (load_preserve env decorator recursive hinj fuel) md.parents
            md.imports (collect_deprecated decorator md.locs md.parents)
            ⟨[], [], [], []⟩ (cacheInv_nil env)).2
        rw [hana] at h2
        exact h2
      have hana₂ : runImports
          (fun s m => load_deprecated_from_module env decorator recursive fuel s m)
          md.parents md.imports (collect_deprecated decorator md.locs md.parents)
          ⟨[], [], [], []⟩ = (StepResult.cont dep, stA) := hana
      obtain ⟨st₂', hmir, hcache, hvis, hlog⟩ :=
        runImports_mirror env decorator recursive hinj fuel fuel₂ md.parents
          md.imports (collect_deprecated decorator md.locs md.parents) dep
          ⟨[], [], [], []⟩ stA (cacheInv_nil env) hana₂
          ⟨stA.cache, [], [], []⟩ hinv1 (cacheLeq_refl _)
      refine ⟨st₂', ?_, hcache, ?_⟩
      · have hana2' : analyzeModule
            (load_deprecated_from_module env decorator recursive (fuel₂ + 1))
            decorator md ⟨stA.cache, [], [], []⟩
            = (StepResult.cont dep, st₂') := hmir
        show (match analyzeModule
            (load_deprecated_from_module env decorator recursive (fuel₂ + 1))
            decorator md ⟨stA.cache, [], [], []⟩ with
          | (StepResult.cont dep, st) =>
              (RunResult.ok (List.insertionSort tupLE
                ((get_deprecated_users dep md.chains md.parents).map (fun t =>
                  (prettyname t.1, fname, t.2.1.lineOf, t.2.1.colOf)))), st)
          | (StepResult.error, st) => (RunResult.error, st)
          | (StepResult.fuelOut, st) => (RunResult.fuelOut, st))
            = (RunResult.ok out, st₂')
        rw [hana2']
        show (RunResult.ok (List.insertionSort tupLE
          ((get_deprecated_users dep md.chains md.parents).map (fun t =>
            (prettyname t.1, fname, t.2.1.lineOf, t.2.1.colOf)))), st₂')
            = (RunResult.ok out, st₂')
        rw [hout]
      · intro q hq
        rcases hlog q hq with hq' | hq'
        · cases hq'
        · exact hq'

/-- Claim C8 witness: the undecodable-import scan replayed on its own
warm cache returns the identical (empty) output, writes nothing, and
re-reads only the undecodable file. -/
theorem warm_cache_idempotence_witness :
    (memestra envU ["d", "dep"] mdTopU "t.py" false 3 []
        = (RunResult.ok [], ⟨[], [], [], ["u.py"]⟩))
    ∧ ∃ st₂, memestra envU ["d", "dep"] mdTopU "t.py" false 3
          (⟨[], [], [], ["u.py"]⟩ : St).cache
        = (RunResult.ok [], st₂)
      ∧ st₂.cache = (⟨[], [], [], ["u.py"]⟩ : St).cache
      ∧ ∀ q, q ∈ st₂.parseLog → envU.source q = ParseOutcome.undecodable := by
  constructor
  · decide
  · exact warm_cache_idempotence envU ["d", "dep"] mdTopU "t.py" false 3 2
      (fun a b h => h) [] ⟨[], [], [], ["u.py"]⟩ (by decide)

end Memestra
